import Mathlib

/-!
# Verification of the AI-Dev-Mentor streaming relay, cache and renderer

Shallow embedding of the core logic of the repository:

* the NDJSON stream relay of `streamChatToWebview` (src/extension.ts),
* the bounded explanation cache of `handleExplain` (src/extension.ts),
* the webview-side `escapeHtml` / `renderMarkdown` and message handlers
  (webview script inlined in src/extension.ts),
* the request validation of the backend handlers (backend/server.js).

Strings are modelled as `List Char`; `JSON.parse` is modelled by a
recursive-descent parser over the JSON grammar; JavaScript truthiness and
the `x || y` defaulting idiom are modelled explicitly.
-/

/-- Character code 96, the backtick. -/
def bq : Char := Char.ofNat 96

/-- Character code 34, the double quote. -/
def dq : Char := Char.ofNat 34

/-- Character code 123, the opening curly brace. -/
def lbr : Char := Char.ofNat 123

/-- Character code 125, the closing curly brace. -/
def rbr : Char := Char.ofNat 125

/-- Character code 92, the backslash. -/
def bsl : Char := '\\'

/-!
## JSON values and `JSON.parse`

Model of the JavaScript value space reachable from `JSON.parse`:
numbers keep their source lexeme (enough to decide truthiness, which only
needs zero-ness of the mantissa).  Object fields are kept in source order;
as in `JSON.parse`, a duplicated key is resolved to its last occurrence
(see `jsGet`).
-/

inductive Json where
  | null : Json
  | bool : Bool → Json
  | num : List Char → Json
  | str : List Char → Json
  | arr : List Json → Json
  | obj : List (List Char × Json) → Json

/-- Whitespace accepted between JSON tokens (space, tab, LF, CR). -/
def jsonWs (c : Char) : Bool := c == ' ' || c == '\t' || c == '\n' || c == '\r'

/-- Drop leading JSON whitespace. -/
def skipWs (s : List Char) : List Char := s.dropWhile jsonWs

/-- Value of a hexadecimal digit. -/
def hexVal (c : Char) : Option Nat :=
  if '0' ≤ c ∧ c ≤ '9' then some (c.toNat - 48)
  else if 'a' ≤ c ∧ c ≤ 'f' then some (c.toNat - 87)
  else if 'A' ≤ c ∧ c ≤ 'F' then some (c.toNat - 55)
  else none

/-- Single-character JSON string escapes. -/
def escChar (c : Char) : Option Char :=
  if c == dq then some dq
  else if c == bsl then some bsl
  else if c == '/' then some '/'
  else if c == 'b' then some (Char.ofNat 8)
  else if c == 'f' then some (Char.ofNat 12)
  else if c == 'n' then some '\n'
  else if c == 'r' then some '\r'
  else if c == 't' then some '\t'
  else none

/-- Parse the body of a JSON string after the opening quote; returns the
decoded characters and the remainder after the closing quote.  Raw control
characters are rejected, as in JSON. -/
def parseStrBody : List Char → Option (List Char × List Char)
  | [] => none
  | c :: rest =>
    if c == dq then some ([], rest)
    else if c == bsl then
      match rest with
      | [] => none
      | e :: rest2 =>
        if e == 'u' then
          match rest2 with
          | h1 :: h2 :: h3 :: h4 :: rest3 =>
            match hexVal h1, hexVal h2, hexVal h3, hexVal h4 with
            | some a, some b, some c2, some d =>
              (parseStrBody rest3).map
                (fun pr => (Char.ofNat (((a * 16 + b) * 16 + c2) * 16 + d) :: pr.1, pr.2))
            | _, _, _, _ => none
          | _ => none
        else
          match escChar e with
          | some c2 => (parseStrBody rest2).map (fun pr => (c2 :: pr.1, pr.2))
          | none => none
    else if c.toNat < 32 then none
    else (parseStrBody rest).map (fun pr => (c :: pr.1, pr.2))

/-- Parse a JSON number lexeme `-?int frac? exp?`; returns the lexeme and the
remainder.  A malformed tail (for example `1.`) is left unconsumed, which the
callers turn into a parse error exactly where `JSON.parse` errors. -/
def parseNumLex (s : List Char) : Option (List Char × List Char) :=
  let p : List Char × List Char :=
    match s with
    | c :: r => if c == '-' then ([c], r) else ([], s)
    | [] => ([], [])
  match p.2 with
  | [] => none
  | c :: r =>
    if c.isDigit then
      let ip : List Char × List Char :=
        if c == '0' then ([c], r)
        else (c :: r.takeWhile Char.isDigit, r.dropWhile Char.isDigit)
      let fp : List Char × List Char :=
        match ip.2 with
        | d :: r2 =>
          if d == '.' then
            match r2.takeWhile Char.isDigit with
            | [] => ([], ip.2)
            | ds => (d :: ds, r2.dropWhile Char.isDigit)
          else ([], ip.2)
        | [] => ([], ip.2)
      let ep : List Char × List Char :=
        match fp.2 with
        | e :: r3 =>
          if e == 'e' || e == 'E' then
            let sp : List Char × List Char :=
              match r3 with
              | g :: r4 => if g == '+' || g == '-' then ([g], r4) else ([], r3)
              | [] => ([], r3)
            match sp.2.takeWhile Char.isDigit with
            | [] => ([], fp.2)
            | ds => (e :: (sp.1 ++ ds), sp.2.dropWhile Char.isDigit)
          else ([], fp.2)
        | [] => ([], fp.2)
      some (p.1 ++ ip.1 ++ fp.1 ++ ep.1, ep.2)
    else none

mutual

/-- Fuel-indexed recursive-descent parser for one JSON value. -/
def pVal : Nat → List Char → Option (Json × List Char)
  | 0, _ => none
  | _ + 1, [] => none
  | fuel + 1, c :: rest =>
    if c == dq then (parseStrBody rest).map (fun pr => (Json.str pr.1, pr.2))
    else if c == 't' then
      match rest with
      | 'r' :: 'u' :: 'e' :: r => some (Json.bool true, r)
      | _ => none
    else if c == 'f' then
      match rest with
      | 'a' :: 'l' :: 's' :: 'e' :: r => some (Json.bool false, r)
      | _ => none
    else if c == 'n' then
      match rest with
      | 'u' :: 'l' :: 'l' :: r => some (Json.null, r)
      | _ => none
    else if c == '[' then pArr fuel (skipWs rest)
    else if c == lbr then pObj fuel (skipWs rest)
    else (parseNumLex (c :: rest)).map (fun pr => (Json.num pr.1, pr.2))

/-- Parse the inside of an array, after the opening bracket and whitespace. -/
def pArr : Nat → List Char → Option (Json × List Char)
  | 0, _ => none
  | fuel + 1, s =>
    match s with
    | c :: r => if c == ']' then some (Json.arr [], r) else pArrElems fuel s []
    | [] => none

/-- Parse one or more comma-separated array elements. -/
def pArrElems : Nat → List Char → List Json → Option (Json × List Char)
  | 0, _, _ => none
  | fuel + 1, s, acc =>
    match pVal fuel s with
    | none => none
    | some (v, r) =>
      match skipWs r with
      | c :: r2 =>
        if c == ',' then pArrElems fuel (skipWs r2) (acc ++ [v])
        else if c == ']' then some (Json.arr (acc ++ [v]), r2)
        else none
      | [] => none

/-- Parse the inside of an object, after the opening brace and whitespace. -/
def pObj : Nat → List Char → Option (Json × List Char)
  | 0, _ => none
  | fuel + 1, s =>
    match s with
    | c :: r => if c == rbr then some (Json.obj [], r) else pObjFields fuel s []
    | [] => none

/-- Parse one or more comma-separated `"key": value` object members. -/
def pObjFields : Nat → List Char → List (List Char × Json) → Option (Json × List Char)
  | 0, _, _ => none
  | fuel + 1, s, acc =>
    match s with
    | c :: r =>
      if c == dq then
        match parseStrBody r with
        | none => none
        | some (key, r2) =>
          match skipWs r2 with
          | c2 :: r3 =>
            if c2 == ':' then
              match pVal fuel (skipWs r3) with
              | none => none
              | some (v, r4) =>
                match skipWs r4 with
                | c3 :: r5 =>
                  if c3 == ',' then pObjFields fuel (skipWs r5) (acc ++ [(key, v)])
                  else if c3 == rbr then some (Json.obj (acc ++ [(key, v)]), r5)
                  else none
                | [] => none
            else none
          | [] => none
      else none
    | [] => none

end

/-- Model of `JSON.parse`: parse a full document, allowing surrounding
whitespace, and fail if anything is left over. -/
def jsonParse (s : List Char) : Option Json :=
  match pVal (3 * s.length + 3) (skipWs s) with
  | some (v, r) => if skipWs r = [] then some v else none
  | none => none

/-- Property access `v.k` on a parsed JSON value: defined (`some`) exactly on
objects that carry the key; the last occurrence of a duplicated key wins, as
in `JSON.parse`. -/
def jsGet (v : Json) (k : List Char) : Option Json :=
  match v with
  | Json.obj fields => (fields.reverse.find? (fun f => f.1 == k)).map (fun f => f.2)
  | _ => none

/-- A JSON number is zero when every mantissa digit is `0`. -/
def numIsZero (lex : List Char) : Bool :=
  (lex.takeWhile (fun c => ¬ (c == 'e' || c == 'E'))).all
    (fun c => ¬ c.isDigit || c == '0')

/-- JavaScript truthiness of a parsed JSON value. -/
def jsTruthy : Json → Bool
  | Json.null => false
  | Json.bool b => b
  | Json.num lex => ¬ numIsZero lex
  | Json.str s => ¬ s.isEmpty
  | Json.arr _ => true
  | Json.obj _ => true

/-- Truthiness of a possibly-undefined value (`undefined` is falsy). -/
def jsTruthyO : Option Json → Bool
  | none => false
  | some v => jsTruthy v

/-- The JavaScript defaulting idiom `x || null`. -/
def jsOrNull : Option Json → Json
  | none => Json.null
  | some v => if jsTruthy v then v else Json.null

mutual

/-- Model of JavaScript `String(v)` string coercion on parsed JSON values. -/
def jsToString : Json → List Char
  | Json.null => "null".toList
  | Json.bool b => if b then "true".toList else "false".toList
  | Json.num lex => lex
  | Json.str s => s
  | Json.arr xs => jsToStringList xs
  | Json.obj _ => "[object Object]".toList

/-- `Array.prototype.toString`: elements joined by commas, `null` as empty. -/
def jsToStringList : List Json → List Char
  | [] => []
  | x :: xs =>
    (match x with
     | Json.null => []
     | v => jsToString v) ++
    (match xs with
     | [] => []
     | _ => ',' :: jsToStringList xs)

end

/-!
## The stream relay of `streamChatToWebview` (src/extension.ts, lines 276-336)

The `data` handler appends the chunk to a buffer, splits on newlines, keeps
the trailing segment (`parts.pop()`) buffered, and interprets each complete
line; the `end` handler interprets the remaining buffer.  Messages posted to
the webview are either `aiDelta` (a delta payload) or `aiDone` (a final text
payload, `null` when absent or falsy).
-/

/-- Messages the relay posts to the webview for one correlation id. -/
inductive WvMsg where
  | aiDelta : Json → WvMsg
  | aiDone : Json → WvMsg

/-- Whitespace removed by JavaScript `String.prototype.trim`. -/
def jsWsChar (c : Char) : Bool :=
  c == ' ' || c == '\t' || c == '\n' || c == '\r' ||
  c == Char.ofNat 11 || c == Char.ofNat 12

/-- Model of `line.trim()`. -/
def jsTrim (s : List Char) : List Char :=
  ((s.dropWhile jsWsChar).reverse.dropWhile jsWsChar).reverse

/-- Model of `buf.split("\n")` followed by `buf = parts.pop() || ""`:
returns the complete (newline-terminated) lines and the trailing segment. -/
def splitLines : List Char → List (List Char) × List Char
  | [] => ([], [])
  | c :: rest =>
    let pr := splitLines rest
    if c = '\n' then ([] :: pr.1, pr.2)
    else
      match pr.1 with
      | [] => ([], c :: pr.2)
      | l :: ls => ((c :: l) :: ls, pr.2)

/-- The `data`-handler body for one complete line (src/extension.ts,
lines 285-318).  Blank lines are skipped; a parsed object with a `delta`
field is forwarded as a delta; a truthy `done` forwards the terminal
message with `obj.text || null`; any other parsed value is forwarded as
`String(obj)` — except `null`, where the property access `obj.delta`
throws and the `catch` forwards the raw line, as it does when
`JSON.parse` itself fails. -/
def processLine (line : List Char) : List WvMsg :=
  if jsTrim line = [] then []
  else
    match jsonParse line with
    | none => [WvMsg.aiDelta (Json.str line)]
    | some Json.null => [WvMsg.aiDelta (Json.str line)]
    | some obj =>
      match jsGet obj "delta".toList with
      | some v => [WvMsg.aiDelta v]
      | none =>
        if jsTruthyO (jsGet obj "done".toList) then
          [WvMsg.aiDone (jsOrNull (jsGet obj "text".toList))]
        else [WvMsg.aiDelta (Json.str (jsToString obj))]

/-- The `end`-handler body for the trailing buffer (src/extension.ts,
lines 321-336).  Unlike the `data` handler it has no fallback branch for a
parsed value that is neither a delta nor a truthy `done`: such a trailing
value is silently dropped. -/
def processEnd (buf : List Char) : List WvMsg :=
  if jsTrim buf = [] then []
  else
    match jsonParse buf with
    | none => [WvMsg.aiDelta (Json.str buf)]
    | some Json.null => [WvMsg.aiDelta (Json.str buf)]
    | some obj =>
      match jsGet obj "delta".toList with
      | some v => [WvMsg.aiDelta v]
      | none =>
        if jsTruthyO (jsGet obj "done".toList) then
          [WvMsg.aiDone (jsOrNull (jsGet obj "text".toList))]
        else []

/-- One `data` event: state is the carried buffer and the messages posted
so far. -/
def feedData (st : List Char × List WvMsg) (chunk : List Char) :
    List Char × List WvMsg :=
  let pr := splitLines (st.1 ++ chunk)
  (pr.2, st.2 ++ (pr.1.map processLine).flatten)

/-- A complete successful stream: every chunk through the `data` handler,
then the `end` handler on the remaining buffer. -/
def relayRun (chunks : List (List Char)) : List WvMsg :=
  let st := chunks.foldl feedData ([], [])
  st.2 ++ processEnd st.1

/-- A stream cut by a connection error after `chunks` were delivered: the
response `end` event never fires; the promise rejects and the `catch` in
the panel message handler (src/extension.ts, lines 224-231) posts the
synthetic error fragment followed by a terminal `aiDone` with `null`. -/
def relayRunFail (chunks : List (List Char)) (errMsg : List Char) : List WvMsg :=
  let st := chunks.foldl feedData ([], [])
  st.2 ++ [WvMsg.aiDelta (Json.str ("❌ Backend error: ".toList ++ errMsg)),
           WvMsg.aiDone Json.null]

/-!
## The webview renderer (webview script in src/extension.ts, lines 579-617)

`escapeHtml` performs four sequential global character replacements;
`renderMarkdown` escapes the whole input first and then applies four
substitution passes: fenced code blocks, inline code spans, paragraph
breaks, single line breaks.  The passes are defined generically over the
character type: instantiated at `Char` they are the translation of the
source, instantiated at `TChar` they additionally carry the provenance of
every character (raw input, escape entity, or template), which the erasure
lemmas relate back to the `Char` instance.
-/

/-- Provenance of an output character: copied raw from the input, produced
by an HTML-entity replacement, or part of a fixed HTML template. -/
inductive Tag where
  | raw : Tag
  | ent : Tag
  | tpl : Tag
deriving DecidableEq

/-- A character together with its provenance. -/
structure TChar where
  c : Char
  t : Tag
deriving DecidableEq

/-- One global single-character replacement `s.replace(/c/g, rep)`. -/
def replaceAllG (ch : α → Char) (mk : Char → α) (c : Char) (rep : List Char) :
    List α → List α
  | [] => []
  | x :: xs => (if ch x = c then rep.map mk else [x]) ++ replaceAllG ch mk c rep xs

/-- The four sequential replacements of `escapeHtml`, in source order:
`&`, then `<`, then `>`, then the double quote. -/
def escapeHtmlG (ch : α → Char) (mk : Char → α) (s : List α) : List α :=
  replaceAllG ch mk dq "&quot;".toList
    (replaceAllG ch mk '>' "&gt;".toList
      (replaceAllG ch mk '<' "&lt;".toList
        (replaceAllG ch mk '&' "&amp;".toList s)))

/-- The source `escapeHtml` on plain strings. -/
def escapeHtml (s : List Char) : List Char := escapeHtmlG id id s

/-- JavaScript `\w`: ASCII letters, digits and underscore. -/
def isWordChar (c : Char) : Bool := c.isAlphanum || c == '_'

/-- `String.prototype.trim` on generic characters. -/
def jsTrimG (ch : α → Char) (s : List α) : List α :=
  ((s.dropWhile (fun a => jsWsChar (ch a))).reverse.dropWhile
    (fun a => jsWsChar (ch a))).reverse

/-- Does the string start with a triple backtick? -/
def startsBq3 (ch : α → Char) : List α → Bool
  | x :: y :: z :: _ => (ch x == bq) && (ch y == bq) && (ch z == bq)
  | _ => false

/-- Lazy search for the closing triple backtick of `[\s\S]*?`: returns the
body before the first occurrence and the remainder after it. -/
def findCloseG (ch : α → Char) : List α → Option (List α × List α)
  | [] => none
  | x :: xs =>
    if startsBq3 ch (x :: xs) then some ([], xs.drop 2)
    else
      match findCloseG ch xs with
      | some pr => some (x :: pr.1, pr.2)
      | none => none

/-- After the optional `(\w+)?` language capture, the fence regexp requires
a newline and then a lazily matched body up to the closing backticks. -/
def fenceRest (ch : α → Char) (lang : List α) :
    List α → Option (List α × List α × List α)
  | [] => none
  | n :: rest3 =>
    if ch n = '\n' then
      match findCloseG ch rest3 with
      | some pr => some (lang, pr.1, pr.2)
      | none => none
    else none

/-- Try to match the fence regexp ```` ```(\w+)?\n([\s\S]*?)``` ```` at the
head of the string; returns the language capture (empty when absent), the
body capture, and the remainder after the match. -/
def matchFenceAtG (ch : α → Char) (s : List α) :
    Option (List α × List α × List α) :=
  if startsBq3 ch s then
    fenceRest ch ((s.drop 3).takeWhile (fun a => isWordChar (ch a)))
      ((s.drop 3).dropWhile (fun a => isWordChar (ch a)))
  else none

/-- The fence replacement callback (src/extension.ts, lines 593-607):
trims the body, re-escapes quotes for the `data-code` attribute, and
emits the code-block template around `(lang || "code")`. -/
def fenceCallbackG (ch : α → Char) (mkT mkE : Char → α) (lang body : List α) :
    List α :=
  ("<div class=\"code-block\"><div class=\"code-toolbar\"><span class=\"code-lang\">").toList.map mkT ++
  (if lang.isEmpty then ("code").toList.map mkT else lang) ++
  ("</span><div><button class=\"copy-btn\" data-action=\"copy\">Copy</button><button class=\"copy-btn\" data-action=\"insert\">Insert</button></div></div><pre><code data-code=\"").toList.map mkT ++
  replaceAllG ch mkE dq "&quot;".toList (jsTrimG ch body) ++
  ("\">").toList.map mkT ++
  jsTrimG ch body ++
  ("</code></pre></div>").toList.map mkT

/-- Left-to-right global scan of the fence regexp. -/
def fenceLoopG (ch : α → Char) (mkT mkE : Char → α) :
    Nat → List α → List α
  | 0, s => s
  | _ + 1, [] => []
  | fuel + 1, x :: xs =>
    match matchFenceAtG ch (x :: xs) with
    | some (lang, body, rest) =>
      fenceCallbackG ch mkT mkE lang body ++ fenceLoopG ch mkT mkE fuel rest
    | none => x :: fenceLoopG ch mkT mkE fuel xs

/-- The fenced-code-block pass. -/
def fenceG (ch : α → Char) (mkT mkE : Char → α) (s : List α) : List α :=
  fenceLoopG ch mkT mkE (s.length + 1) s

/-- Left-to-right global scan of the inline-code regexp `` `([^`\n]+)` ``. -/
def inlineLoopG (ch : α → Char) (mkT : Char → α) : Nat → List α → List α
  | 0, s => s
  | _ + 1, [] => []
  | fuel + 1, x :: xs =>
    if ch x = bq then
      match xs.dropWhile (fun a => ¬ (ch a = bq ∨ ch a = '\n')),
            xs.takeWhile (fun a => ¬ (ch a = bq ∨ ch a = '\n')) with
      | r :: rs, _ :: _ =>
        if ch r = bq then
          ("<code class=\"inline\">").toList.map mkT ++
            xs.takeWhile (fun a => ¬ (ch a = bq ∨ ch a = '\n')) ++
            ("</code>").toList.map mkT ++ inlineLoopG ch mkT fuel rs
        else x :: inlineLoopG ch mkT fuel xs
      | _, _ => x :: inlineLoopG ch mkT fuel xs
    else x :: inlineLoopG ch mkT fuel xs

/-- The inline-code pass. -/
def inlineG (ch : α → Char) (mkT : Char → α) (s : List α) : List α :=
  inlineLoopG ch mkT (s.length + 1) s

/-- Left-to-right global scan of the paragraph regexp `\n{2,}`. -/
def paraLoopG (ch : α → Char) (mkT : Char → α) : Nat → List α → List α
  | 0, s => s
  | _ + 1, [] => []
  | fuel + 1, x :: xs =>
    if ch x = '\n' then
      match xs.takeWhile (fun a => ch a = '\n') with
      | [] => x :: paraLoopG ch mkT fuel xs
      | _ :: _ =>
        ("</p><p>").toList.map mkT ++
          paraLoopG ch mkT fuel (xs.dropWhile (fun a => ch a = '\n'))
    else x :: paraLoopG ch mkT fuel xs

/-- The paragraph-break pass. -/
def paraG (ch : α → Char) (mkT : Char → α) (s : List α) : List α :=
  paraLoopG ch mkT (s.length + 1) s

/-- The single-line-break pass `html.replace(/\n/g, "<br>")`. -/
def brG (ch : α → Char) (mkT : Char → α) (s : List α) : List α :=
  replaceAllG ch mkT '\n' "<br>".toList s

/-- `renderMarkdown` (src/extension.ts, lines 587-617): empty input short
circuits, otherwise escape everything, then fences, inline code, paragraph
breaks, and line breaks wrapped in a paragraph. -/
def renderMarkdownG (ch : α → Char) (mkT mkE : Char → α) (md : List α) : List α :=
  if md.isEmpty then []
  else
    ("<p>").toList.map mkT ++
      brG ch mkT
        (paraG ch mkT (inlineG ch mkT (fenceG ch mkT mkE (escapeHtmlG ch mkE md)))) ++
      ("</p>").toList.map mkT

/-- The source `renderMarkdown` on plain strings. -/
def renderMarkdown (md : List Char) : List Char := renderMarkdownG id id id md

/-- The input string with every character tagged as raw input. -/
def tagRaw (md : List Char) : List TChar := md.map (fun c => TChar.mk c Tag.raw)

/-- `renderMarkdown` instrumented with character provenance. -/
def renderMarkdownT (md : List Char) : List TChar :=
  renderMarkdownG TChar.c (fun c => TChar.mk c Tag.tpl) (fun c => TChar.mk c Tag.ent)
    (tagRaw md)

/-!
## The webview message consumer (webview script, lines 707-740)

For the bubble registered under one correlation id: an `aiDelta` appends
`msg.delta || ''` to the bubble text while the id is pending; an `aiDone`
removes the id from the pending map and replaces the bubble content by
`renderMarkdown(finalText)` only when the final text is a string
(`finalText !== null && typeof finalText === "string"` in the source). -/

/-- State of the streaming placeholder bubble for one correlation id. -/
structure BubbleState where
  hasPending : Bool
  text : List Char
deriving DecidableEq

/-- Apply one relay message to the bubble state. -/
def applyWv (st : BubbleState) (m : WvMsg) : BubbleState :=
  match m with
  | WvMsg.aiDelta d =>
    if st.hasPending then
      { st with text := st.text ++ (if jsTruthy d then jsToString d else []) }
    else st
  | WvMsg.aiDone t =>
    if st.hasPending then
      match t with
      | Json.str s => { hasPending := false, text := renderMarkdown s }
      | _ => { hasPending := false, text := st.text }
    else st

/-- Run the consumer over a message sequence, starting from the freshly
registered pending placeholder. -/
def consumerRun (msgs : List WvMsg) : BubbleState :=
  msgs.foldl applyWv (BubbleState.mk true [])

/-!
## The bounded explanation cache (src/extension.ts, lines 16-18, 131-135)

`explanationCache` is a JavaScript `Map`; `Map.set` overwrites in place
(keeping the original insertion position) or appends; after `set`, if
`size > MAX_CACHE` the first key of the iteration order (the oldest
inserted) is deleted. -/

/-- The capacity constant `MAX_CACHE`. -/
def MAX_CACHE : Nat := 1000

/-- `Map.prototype.set`: overwrite in place if the key exists, else append. -/
def mapSet (m : List (String × String)) (k v : String) : List (String × String) :=
  if m.any (fun q => q.1 == k) then m.map (fun q => if q.1 == k then (k, v) else q)
  else m ++ [(k, v)]

/-- The cache insertion of `handleExplain`: `set`, then if the size exceeds
the capacity delete the entry of the first key of the iteration order. -/
def cachePut (cap : Nat) (m : List (String × String)) (k v : String) :
    List (String × String) :=
  let m1 := mapSet m k v
  if cap < m1.length then
    match m1.head? with
    | some q => m1.eraseP (fun r => r.1 == q.1)
    | none => m1
  else m1

/-- Run a sequence of put operations against an initially empty cache. -/
def cacheRun (cap : Nat) (ps : List (String × String)) : List (String × String) :=
  ps.foldl (fun m p => cachePut cap m p.1 p.2) []

/-!
## Backend request validation (backend/server.js, lines 32-41 and 121-131)

`const { query } = req.body || {}` followed by
`if (!query || typeof query !== "string" || query.length > 120)` returns
`400 {ok:false, error}` before anything touches the model; the
chat-stream handler does the same for `message` with bound 20000. -/

/-- Outcome of the validation prefix of a request handler. -/
inductive ReqOutcome where
  | rejected : Nat → Bool → List Char → ReqOutcome
  | accepted : ReqOutcome
deriving DecidableEq

/-- Destructuring `(req.body || {}).k`. -/
def bodyField (body : Option Json) (k : List Char) : Option Json :=
  match body with
  | none => none
  | some b => jsGet b k

/-- `typeof v === "string"` on a possibly-undefined value. -/
def isJsonStr : Option Json → Bool
  | some (Json.str _) => true
  | _ => false

/-- `.length` of a string field (only used under `isJsonStr`). -/
def fieldLen : Option Json → Nat
  | some (Json.str s) => s.length
  | _ => 0

/-- The validation prefix of `POST /v1/explain`. -/
def explainValidate (body : Option Json) : ReqOutcome :=
  let query := bodyField body "query".toList
  if !jsTruthyO query || !isJsonStr query || decide (120 < fieldLen query) then
    ReqOutcome.rejected 400 false "Invalid \x27query\x27.".toList
  else ReqOutcome.accepted

/-- The validation prefix of `POST /v1/chat-stream` (and `/v1/chat`). -/
def chatStreamValidate (body : Option Json) : ReqOutcome :=
  let message := bodyField body "message".toList
  if !jsTruthyO message || !isJsonStr message || decide (20000 < fieldLen message) then
    ReqOutcome.rejected 400 false "Invalid \x27message\x27.".toList
  else ReqOutcome.accepted

/-!
## Auxiliary observations used by the statements
-/

/-- Whether a relay message is a delta fragment. -/
def isDeltaMsg : WvMsg → Bool
  | WvMsg.aiDelta _ => true
  | WvMsg.aiDone _ => false

/-- The text the consumer appends for a sequence of messages: the delta
payloads after the `msg.delta || ''` defaulting, terminal events contribute
nothing. -/
def deltaTexts (ms : List WvMsg) : List Char :=
  (ms.map (fun m =>
    match m with
    | WvMsg.aiDelta d => if jsTruthy d then jsToString d else []
    | WvMsg.aiDone _ => [])).flatten

/-- Number of terminal events in a message sequence. -/
def countDone (ms : List WvMsg) : Nat :=
  ms.countP (fun m =>
    match m with
    | WvMsg.aiDone _ => true
    | WvMsg.aiDelta _ => false)

/-- Prefix test on character lists. -/
def isPrefixL : List Char → List Char → Bool
  | [], _ => true
  | _ :: _, [] => false
  | a :: as, b :: bs => a == b && isPrefixL as bs

/-- Substring occurrence test: does `pat` occur contiguously in `s`? -/
def containsSub (s pat : List Char) : Bool :=
  if isPrefixL pat s then true
  else
    match s with
    | [] => false
    | _ :: rest => containsSub rest pat

/-- A provenance-tagged character is display-safe when, if it was copied raw
from the input, it is none of the four HTML-special characters. -/
def rawSafeChar (x : TChar) : Bool :=
  match x.t with
  | Tag.raw => !(x.c == '&' || x.c == '<' || x.c == '>' || x.c == dq)
  | Tag.ent => true
  | Tag.tpl => true

/-- The `<pre><code …>` part a preserved fence body must produce. -/
def codeSnippet (body : List Char) : List Char :=
  ("<pre><code data-code=\"").toList ++ body ++ ("\">").toList ++ body ++
    ("</code></pre>").toList

/-- The language label a preserved fence tag must produce. -/
def langSnippet (lang : List Char) : List Char :=
  ("<span class=\"code-lang\">").toList ++ lang ++ ("</span>").toList

/-!
## Theorems
-/

/-- C2: after any completed put the explanation cache holds at most `MAX_CACHE = 1000` entries; the intermediate map right after `set` exceeds the capacity by at most one; and a put of a fresh key into a cache at capacity evicts exactly one entry, the oldest-inserted one. -/
theorem cachePut_bounded (m : List (String × String)) (k v : String)
    (h : m.length ≤ MAX_CACHE) :
    (cachePut MAX_CACHE m k v).length ≤ MAX_CACHE ∧
    (mapSet m k v).length ≤ MAX_CACHE + 1 ∧
    (m.length = MAX_CACHE → m.any (fun q => q.1 == k) = false →
      cachePut MAX_CACHE m k v = m.tail ++ [(k, v)]) := by
  have hset : (mapSet m k v).length ≤ m.length + 1 := by
    unfold mapSet
    by_cases hk : m.any (fun q => q.1 == k) = true
    · rw [if_pos hk]; simp
    · rw [if_neg hk]; simp
  refine ⟨?_, by omega, ?_⟩
  · unfold cachePut
    by_cases hlt : MAX_CACHE < (mapSet m k v).length
    · rw [if_pos hlt]
      have hne : mapSet m k v ≠ [] := by
        intro hnil; rw [hnil] at hlt; simp at hlt
      obtain ⟨q, t, hqt⟩ := List.exists_cons_of_ne_nil hne
      rw [hqt]
      simp only [List.head?_cons]
      rw [List.eraseP_cons_of_pos]
      · have : (mapSet m k v).length = t.length + 1 := by rw [hqt]; simp
        omega
      · simp
    · rw [if_neg hlt]; omega
  · intro hlen hk
    unfold cachePut
    have hset2 : mapSet m k v = m ++ [(k, v)] := by
      unfold mapSet
      rw [if_neg (by simp [hk])]
    rw [hset2]
    have hmne : m ≠ [] := by
      intro hnil; rw [hnil] at hlen; simp [MAX_CACHE] at hlen
    obtain ⟨q, t, hqt⟩ := List.exists_cons_of_ne_nil hmne
    subst hqt
    rw [if_pos (by simp [MAX_CACHE] at hlen ⊢; omega)]
    simp only [List.cons_append, List.head?_cons]
    rw [List.eraseP_cons_of_pos]
    · simp
    · simp

/-- Witness for C2 at a concrete one-entry cache. -/
theorem cachePut_bounded_witness :
    (cachePut MAX_CACHE [("a", "x")] "b" "y").length ≤ MAX_CACHE ∧
    (mapSet [("a", "x")] "b" "y").length ≤ MAX_CACHE + 1 := by
  have h := cachePut_bounded [("a", "x")] "b" "y" (by simp [MAX_CACHE])
  exact ⟨h.1, h.2.1⟩

/-- C8: a `/v1/explain` query of exactly 120 characters passes validation; a query of 121 or more characters, a missing query, or a non-string query is rejected with status 400 and an `ok:false` error body in the validation stage, before anything reaches the model; the same validation with bound 20000 governs the `/v1/chat-stream` message field. -/
theorem validate_bounds (s : List Char) :
    (s.length = 120 →
      explainValidate (some (Json.obj [("query".toList, Json.str s)])) =
        ReqOutcome.accepted) ∧
    (121 ≤ s.length →
      explainValidate (some (Json.obj [("query".toList, Json.str s)])) =
        ReqOutcome.rejected 400 false ("Invalid \x27query\x27.").toList) ∧
    (∀ v : Json, isJsonStr (some v) = false →
      explainValidate (some (Json.obj [("query".toList, v)])) =
        ReqOutcome.rejected 400 false ("Invalid \x27query\x27.").toList) ∧
    explainValidate (some (Json.obj [])) =
      ReqOutcome.rejected 400 false ("Invalid \x27query\x27.").toList ∧
    explainValidate none =
      ReqOutcome.rejected 400 false ("Invalid \x27query\x27.").toList ∧
    (s.length = 20000 →
      chatStreamValidate (some (Json.obj [("message".toList, Json.str s)])) =
        ReqOutcome.accepted) ∧
    (20001 ≤ s.length →
      chatStreamValidate (some (Json.obj [("message".toList, Json.str s)])) =
        ReqOutcome.rejected 400 false ("Invalid \x27message\x27.").toList) := by
  have hget : ∀ (k : List Char) (v : Json),
      bodyField (some (Json.obj [(k, v)])) k = some v := by
    intro k v
    simp [bodyField, jsGet]
  refine ⟨?_, ?_, ?_, rfl, rfl, ?_, ?_⟩
  · intro h
    have hne : s ≠ [] := by intro hnil; rw [hnil] at h; simp at h
    simp [explainValidate, hget, jsTruthyO, jsTruthy, isJsonStr, fieldLen, h, hne]
  · intro h
    have : decide (120 < fieldLen (some (Json.str s))) = true := by
      simp [fieldLen]; omega
    simp [explainValidate, hget, this]
  · intro v hv
    simp [explainValidate, hget, hv]
  · intro h
    have hne : s ≠ [] := by intro hnil; rw [hnil] at h; simp at h
    simp [chatStreamValidate, hget, jsTruthyO, jsTruthy, isJsonStr, fieldLen, h, hne]
  · intro h
    have : decide (20000 < fieldLen (some (Json.str s))) = true := by
      simp [fieldLen]; omega
    simp [chatStreamValidate, hget, this]

/-- Witness for C8 at concrete strings of lengths 120, 121 and 20000. -/
theorem validate_bounds_witness :
    explainValidate (some (Json.obj [("query".toList, Json.str (List.replicate 120 'q'))])) =
      ReqOutcome.accepted ∧
    explainValidate (some (Json.obj [("query".toList, Json.str (List.replicate 121 'q'))])) =
      ReqOutcome.rejected 400 false ("Invalid \x27query\x27.").toList ∧
    chatStreamValidate (some (Json.obj [("message".toList, Json.str (List.replicate 20000 'm'))])) =
      ReqOutcome.accepted := by
  refine ⟨(validate_bounds (List.replicate 120 'q')).1 (by rw [List.length_replicate]),
          ((validate_bounds (List.replicate 121 'q')).2.1 (by rw [List.length_replicate])),
          ((validate_bounds (List.replicate 20000 'm')).2.2.2.2.2.1 (by rw [List.length_replicate]))⟩

/-- C9: the terminal record `done:true, text:""` is forwarded as `aiDone` with text `null` because of the `obj.text || null` coercion, and on a null terminal payload the consumer keeps the accumulated fragment text and clears the pending id. -/
theorem doneEmptyText_forwardsNull :
    processLine ("\x7b\"done\":true,\"text\":\"\"\x7d").toList = [WvMsg.aiDone Json.null] ∧
    (∀ st : BubbleState, st.hasPending = true →
      applyWv st (WvMsg.aiDone Json.null) = BubbleState.mk false st.text) := by
  refine ⟨rfl, ?_⟩
  intro st h
  simp [applyWv, h]

/-- Witness for C9 at a concrete bubble state. -/
theorem doneEmptyText_forwardsNull_witness :
    processLine ("\x7b\"done\":true,\"text\":\"\"\x7d").toList = [WvMsg.aiDone Json.null] ∧
    applyWv (BubbleState.mk true ("Hel").toList) (WvMsg.aiDone Json.null) =
      BubbleState.mk false ("Hel").toList :=
  ⟨doneEmptyText_forwardsNull.1, doneEmptyText_forwardsNull.2 _ rfl⟩

/-- C5 (amended): every complete line with non-whitespace content that fails to parse as JSON is forwarded verbatim as a delta fragment. -/
theorem unparsedLine_forwarded (line : List Char) (h1 : jsTrim line ≠ [])
    (h2 : jsonParse line = none) :
    processLine line = [WvMsg.aiDelta (Json.str line)] := by
  unfold processLine
  rw [if_neg h1, h2]

/-- Witness for C5 at a concrete unparsable line. -/
theorem unparsedLine_forwarded_witness :
    jsTrim ("notjson").toList ≠ [] ∧
    jsonParse ("notjson").toList = none ∧
    processLine ("notjson").toList = [WvMsg.aiDelta (Json.str ("notjson").toList)] :=
  ⟨by decide, rfl, unparsedLine_forwarded _ (by decide) rfl⟩

/-- Counterexample to C5 as stated: a whitespace-only line fails to parse as JSON yet is dropped by the relay rather than forwarded verbatim. -/
theorem whitespaceLine_dropped :
    jsonParse (" ").toList = none ∧ processLine (" ").toList = [] ∧
    processLine (" ").toList ≠ [WvMsg.aiDelta (Json.str (" ").toList)] := by
  refine ⟨rfl, rfl, ?_⟩
  intro h
  have h2 : ([] : List WvMsg) = [WvMsg.aiDelta (Json.str (" ").toList)] := h
  exact List.noConfusion h2

/-- Helper: the end handler on a parse failure. -/
theorem processEnd_none (buf : List Char) (h : jsTrim buf ≠ [])
    (hp : jsonParse buf = none) :
    processEnd buf = [WvMsg.aiDelta (Json.str buf)] := by
  unfold processEnd
  rw [if_neg h, hp]

/-- Helper: the end handler when the buffer parses to `null`. -/
theorem processEnd_null (buf : List Char) (h : jsTrim buf ≠ [])
    (hp : jsonParse buf = some Json.null) :
    processEnd buf = [WvMsg.aiDelta (Json.str buf)] := by
  unfold processEnd
  rw [if_neg h, hp]

/-- Helper: the end handler on a non-null parsed value. -/
theorem processEnd_some (buf : List Char) (h : jsTrim buf ≠ []) (obj : Json)
    (hp : jsonParse buf = some obj) (hn : obj ≠ Json.null) :
    processEnd buf =
      match jsGet obj ("delta").toList with
      | some v => [WvMsg.aiDelta v]
      | none =>
        if jsTruthyO (jsGet obj ("done").toList) then
          [WvMsg.aiDone (jsOrNull (jsGet obj ("text").toList))]
        else [] := by
  unfold processEnd
  rw [if_neg h, hp]
  cases obj with
  | null => exact absurd rfl hn
  | bool b => rfl
  | num l => rfl
  | str s => rfl
  | arr xs => rfl
  | obj fs => rfl

/-- C10 (amended): a trailing buffer with non-whitespace content at end of stream is forwarded verbatim when it fails to parse as JSON, and it is dropped exactly when it parses to a non-null JSON value that has no `delta` field and no truthy `done` field. -/
theorem trailingBuffer_cases (buf : List Char) (h : jsTrim buf ≠ []) :
    (jsonParse buf = none → processEnd buf = [WvMsg.aiDelta (Json.str buf)]) ∧
    (processEnd buf = [] ↔
      ∃ obj, jsonParse buf = some obj ∧ obj ≠ Json.null ∧
        jsGet obj ("delta").toList = none ∧
        jsTruthyO (jsGet obj ("done").toList) = false) := by
  refine ⟨processEnd_none buf h, ?_, ?_⟩
  · intro he
    cases hp : jsonParse buf with
    | none => rw [processEnd_none buf h hp] at he; exact absurd he (by simp)
    | some obj =>
      by_cases hnull : obj = Json.null
      · subst hnull
        rw [processEnd_null buf h hp] at he
        exact absurd he (by simp)
      · rw [processEnd_some buf h obj hp hnull] at he
        cases hd : jsGet obj ("delta").toList with
        | some v => rw [hd] at he; exact absurd he (by simp)
        | none =>
          rw [hd] at he
          by_cases ht : jsTruthyO (jsGet obj ("done").toList) = true
          · rw [if_pos ht] at he; exact absurd he (by simp)
          · exact ⟨obj, rfl, hnull, hd, by simpa using ht⟩
  · rintro ⟨obj, hp, hnull, hd, ht⟩
    rw [processEnd_some buf h obj hp hnull, hd, ht]
    simp

/-- Witness for C10 at a concrete unparsable trailing buffer. -/
theorem trailingBuffer_cases_witness :
    jsTrim ("hello").toList ≠ [] ∧
    processEnd ("hello").toList = [WvMsg.aiDelta (Json.str ("hello").toList)] :=
  ⟨by decide, (trailingBuffer_cases ("hello").toList (by decide)).1 rfl⟩

/-- Counterexample to C10 as stated: the trailing buffer `5` has non-whitespace content and parses as JSON, but it is neither a delta nor a done record, and the end handler silently drops it. -/
theorem trailingNumber_dropped :
    jsTrim ("5").toList ≠ [] ∧
    jsonParse ("5").toList = some (Json.num ['5']) ∧
    processEnd ("5").toList = [] ∧
    processEnd ("5").toList ≠ [WvMsg.aiDelta (Json.str ("5").toList)] := by
  refine ⟨by decide, rfl, rfl, ?_⟩
  intro h
  have h2 : ([] : List WvMsg) = [WvMsg.aiDelta (Json.str ("5").toList)] := h
  exact List.noConfusion h2

/-- Helper: running puts from any under-capacity cache keeps the most
recent `C` entries of the combined history, provided keys are fresh. -/
theorem cacheRun_go (C : Nat) (ps : List (String × String)) :
    ∀ (m : List (String × String)),
      m.length ≤ C →
      (ps.map Prod.fst).Nodup →
      (∀ p ∈ ps, m.any (fun q => q.1 == p.1) = false) →
      ps.foldl (fun m p => cachePut C m p.1 p.2) m =
        (m ++ ps).drop ((m ++ ps).length - C) := by
  induction ps with
  | nil =>
    intro m hlen _ _
    simp [Nat.sub_eq_zero_of_le hlen]
  | cons p ps' ih =>
    intro m hlen hnod hdisj
    have hmem : m.any (fun q => q.1 == p.1) = false :=
      hdisj p (List.mem_cons_self p ps')
    have hset : mapSet m p.1 p.2 = m ++ [p] := by
      unfold mapSet
      rw [if_neg (by simp [hmem])]
    rw [List.map_cons] at hnod
    have hnodc := List.nodup_cons.mp hnod
    have hdisj' : ∀ p' ∈ ps', (m ++ [p]).any (fun q => q.1 == p'.1) = false := by
      intro p' hp'
    -- the old keys are absent and the new key differs from every later key
      rw [List.any_append]
      have h1 : m.any (fun q => q.1 == p'.1) = false := hdisj p' (List.mem_cons_of_mem p hp')
      have h2 : (p.1 == p'.1) = false := by
        have : p'.1 ∈ ps'.map Prod.fst := List.mem_map_of_mem Prod.fst hp'
        have hne : p.1 ≠ p'.1 := by
          intro he; rw [he] at hnodc; exact hnodc.1 this
        simpa using hne
      simp [h1, h2]
    rcases Nat.lt_or_ge m.length C with hlt | hge
    · have hput : cachePut C m p.1 p.2 = m ++ [p] := by
        unfold cachePut
        rw [hset, if_neg (by simp; omega)]
      rw [List.foldl_cons, hput, ih (m ++ [p]) (by simp; omega) hnodc.2 hdisj']
      have hl : (m ++ [p]) ++ ps' = m ++ p :: ps' := by simp
      rw [hl]
    · have hfe : m.length = C := le_antisymm hlen hge
      cases m with
      | nil =>
        have hc0 : C = 0 := by simpa using hfe.symm
        have hput : cachePut C [] p.1 p.2 = [] := by
          unfold cachePut mapSet
          simp [hc0, List.eraseP_cons_of_pos]
        rw [List.foldl_cons, hput,
          ih [] (by simp) hnodc.2 (by intro p' _; simp)]
        simp [hc0, List.drop_length]
      | cons q t =>
        have hput : cachePut C (q :: t) p.1 p.2 = t ++ [p] := by
          unfold cachePut
          rw [hset]
          rw [if_pos (by simp at hfe ⊢; omega)]
          simp only [List.cons_append, List.head?_cons]
          rw [List.eraseP_cons_of_pos (by simp)]
        have hdisj'' : ∀ p' ∈ ps', (t ++ [p]).any (fun q => q.1 == p'.1) = false := by
          intro p' hp'
          have := hdisj' p' hp'
          rw [List.cons_append, List.any_cons] at this
          exact (Bool.or_eq_false_iff.mp this).2
        rw [List.foldl_cons, hput,
          ih (t ++ [p]) (by simp at hfe ⊢; omega) hnodc.2 hdisj'']
        have hC : C = t.length + 1 := by simpa using hfe.symm
        have hlen1 : ((t ++ [p]) ++ ps').length - C = ps'.length := by
          simp [hC]; omega
        have hlen2 : ((q :: t) ++ p :: ps').length - C = ps'.length + 1 := by
          simp [hC]
        rw [hlen1, hlen2]
        have hx : (q :: t) ++ p :: ps' = q :: ((t ++ [p]) ++ ps') := by simp
        rw [hx, List.drop_succ_cons]

/-- C3 (amended): for every capacity `C` and every put sequence with pairwise distinct keys, the cache ends as exactly the most recently inserted entries of the sequence, with exactly `C` entries when more than `C` puts occurred. -/
theorem cacheRun_mostRecent (C : Nat) (ps : List (String × String))
    (h : (ps.map Prod.fst).Nodup) :
    cacheRun C ps = ps.drop (ps.length - C) ∧
    (C < ps.length → (cacheRun C ps).length = C) := by
  have hg := cacheRun_go C ps [] (by simp) h (by intro p _; simp)
  simp only [List.nil_append] at hg
  have hg' : cacheRun C ps = ps.drop (ps.length - C) := hg
  refine ⟨hg', ?_⟩
  intro hlt
  rw [hg']
  simp [List.length_drop]
  omega

/-- Witness for C3 at a concrete three-put sequence with capacity two. -/
theorem cacheRun_mostRecent_witness :
    cacheRun 2 [("a", "1"), ("b", "2"), ("c", "3")] =
      [("a", "1"), ("b", "2"), ("c", "3")].drop (3 - 2) ∧
    (cacheRun 2 [("a", "1"), ("b", "2"), ("c", "3")]).length = 2 := by
  have h := cacheRun_mostRecent 2 [("a", "1"), ("b", "2"), ("c", "3")] (by decide)
  exact ⟨h.1, h.2 (by decide)⟩

/-- Counterexample to C3 as stated: with capacity 2, three puts that repeat one key leave a single entry, not two, because `Map.set` overwrites in place. -/
theorem cacheRun_repeatedKeys_cex :
    2 < ([(("a" : String), ("1" : String)), ("a", "2"), ("a", "3")]).length ∧
    cacheRun 2 [("a", "1"), ("a", "2"), ("a", "3")] = [("a", "3")] ∧
    (cacheRun 2 [("a", "1"), ("a", "2"), ("a", "3")]).length ≠ 2 := by
  refine ⟨by decide, by decide, by decide⟩

/-- Unfolding: splitting after a leading newline. -/
theorem splitLines_cons_nl (rest : List Char) :
    splitLines ('\n' :: rest) =
      ([] :: (splitLines rest).1, (splitLines rest).2) := by
  simp [splitLines]

/-- Unfolding: a leading non-newline character extends the leftover when no
complete line has formed yet. -/
theorem splitLines_cons_other_nil (c : Char) (rest : List Char) (h : c ≠ '\n')
    (h2 : (splitLines rest).1 = []) :
    splitLines (c :: rest) = ([], c :: (splitLines rest).2) := by
  simp only [splitLines, if_neg h]
  rw [h2]

/-- Unfolding: a leading non-newline character extends the first complete
line when one exists. -/
theorem splitLines_cons_other_cons (c : Char) (rest : List Char)
    (l : List Char) (ls : List (List Char)) (h : c ≠ '\n')
    (h2 : (splitLines rest).1 = l :: ls) :
    splitLines (c :: rest) = ((c :: l) :: ls, (splitLines rest).2) := by
  simp only [splitLines, if_neg h]
  rw [h2]

/-- The split of a concatenation: complete lines of the first part, then the
split of the leftover glued onto the second part. -/
theorem splitLines_append (a b : List Char) :
    splitLines (a ++ b) =
      ((splitLines a).1 ++ (splitLines ((splitLines a).2 ++ b)).1,
       (splitLines ((splitLines a).2 ++ b)).2) := by
  induction a with
  | nil => simp [splitLines]
  | cons c a' ih =>
    by_cases hc : c = '\n'
    · subst hc
      rw [List.cons_append, splitLines_cons_nl, splitLines_cons_nl, ih]
      simp
    · rcases ha : (splitLines a').1 with _ | ⟨l, ls⟩
      · rw [List.cons_append, splitLines_cons_other_nil c a' hc ha]
        simp only [List.nil_append, List.cons_append]
        rcases ht : (splitLines ((splitLines a').2 ++ b)).1 with _ | ⟨m, ms⟩
        · have hS1 : (splitLines (a' ++ b)).1 = [] := by
            rw [ih]; simp [ha, ht]
          have hS2 : (splitLines (a' ++ b)).2 =
              (splitLines ((splitLines a').2 ++ b)).2 := by rw [ih]
          rw [splitLines_cons_other_nil c (a' ++ b) hc hS1,
              splitLines_cons_other_nil c ((splitLines a').2 ++ b) hc ht, hS2]
        · have hS1 : (splitLines (a' ++ b)).1 = m :: ms := by
            rw [ih]; simp [ha, ht]
          have hS2 : (splitLines (a' ++ b)).2 =
              (splitLines ((splitLines a').2 ++ b)).2 := by rw [ih]
          rw [splitLines_cons_other_cons c (a' ++ b) m ms hc hS1,
              splitLines_cons_other_cons c ((splitLines a').2 ++ b) m ms hc ht,
              hS2]
      · have hS1 : (splitLines (a' ++ b)).1 =
            l :: (ls ++ (splitLines ((splitLines a').2 ++ b)).1) := by
          rw [ih]; simp [ha]
        have hS2 : (splitLines (a' ++ b)).2 =
            (splitLines ((splitLines a').2 ++ b)).2 := by rw [ih]
        rw [List.cons_append,
            splitLines_cons_other_cons c (a' ++ b) _ _ hc hS1,
            splitLines_cons_other_cons c a' l ls hc ha, hS2]
        simp

/-- A newline-free string splits into no complete line and itself. -/
theorem splitLines_no_nl (s : List Char) (h : '\n' ∉ s) : splitLines s = ([], s) := by
  induction s with
  | nil => rfl
  | cons c rest ih =>
    have hc : c ≠ '\n' := fun he => h (he ▸ List.mem_cons_self c rest)
    have ih2 := ih (fun hm => h (List.mem_cons_of_mem c hm))
    rw [splitLines_cons_other_nil c rest hc (by rw [ih2]), ih2]

/-- The leftover of a split never contains a newline. -/
theorem splitLines_rest_no_nl (s : List Char) : '\n' ∉ (splitLines s).2 := by
  induction s with
  | nil => simp [splitLines]
  | cons c rest ih =>
    by_cases hc : c = '\n'
    · subst hc; rw [splitLines_cons_nl]; exact ih
    · rcases hr : (splitLines rest).1 with _ | ⟨l, ls⟩
      · rw [splitLines_cons_other_nil c rest hc hr]
        intro hm
        rcases List.mem_cons.mp hm with he | hm2
        · exact hc he.symm
        · exact ih hm2
      · rw [splitLines_cons_other_cons c rest l ls hc hr]
        exact ih

/-- Two consecutive `data` events behave as one concatenated event. -/
theorem feedData_append (st : List Char × List WvMsg) (a b : List Char) :
    feedData (feedData st a) b = feedData st (a ++ b) := by
  unfold feedData
  rw [← List.append_assoc st.1 a b, splitLines_append (st.1 ++ a) b]
  simp [List.append_assoc]

/-- Folding the `data` handler over chunks equals one event with the whole
body, for any newline-free starting buffer. -/
theorem foldl_feedData (chunks : List (List Char)) :
    ∀ st : List Char × List WvMsg, '\n' ∉ st.1 →
      chunks.foldl feedData st = feedData st chunks.flatten := by
  induction chunks with
  | nil =>
    intro st h
    rw [List.foldl_nil, List.flatten_nil]
    unfold feedData
    rw [List.append_nil, splitLines_no_nl st.1 h]
    simp
  | cons c cs ih =>
    intro st h
    rw [List.foldl_cons, ih (feedData st c) (splitLines_rest_no_nl (st.1 ++ c)),
        feedData_append, List.flatten_cons]

/-- C1: the stream relay produces exactly the same ordered sequence of forwarded records for every way of splitting the NDJSON body into chunks delivered in order as when the whole body arrives as a single chunk, buffering any partial trailing line across chunk boundaries. -/
theorem relayRun_chunkInvariant (chunks : List (List Char)) :
    relayRun chunks = relayRun [chunks.flatten] := by
  have h1 : chunks.foldl feedData ([], []) = feedData ([], []) chunks.flatten :=
    foldl_feedData chunks ([], []) (by simp)
  have h2 : [chunks.flatten].foldl feedData ([], []) =
      feedData ([], []) chunks.flatten := by
    rw [List.foldl_cons, List.foldl_nil]
  unfold relayRun
  rw [h1, h2]

/-- Helper: while only delta fragments arrive, the bubble stays pending and
accumulates exactly their payload text. -/
theorem consumer_deltas (ms : List WvMsg) :
    ∀ st : BubbleState, st.hasPending = true →
      (∀ m ∈ ms, isDeltaMsg m = true) →
      ms.foldl applyWv st = BubbleState.mk true (st.text ++ deltaTexts ms) := by
  induction ms with
  | nil =>
    intro st hp _
    cases st with
    | mk pending text =>
      simp only [BubbleState.hasPending] at hp
      subst hp
      simp [deltaTexts]
  | cons m ms' ih =>
    intro st hp hall
    cases m with
    | aiDone t =>
      have := hall _ (List.mem_cons_self _ ms')
      simp [isDeltaMsg] at this
    | aiDelta d =>
      rw [List.foldl_cons]
      have hstep : applyWv st (WvMsg.aiDelta d) =
          BubbleState.mk st.hasPending
            (st.text ++ (if jsTruthy d then jsToString d else [])) := by
        simp [applyWv, hp]
      rw [hstep, ih _ (by rw [hp]) (fun m hm => hall m (List.mem_cons_of_mem _ hm))]
      simp [hp, deltaTexts, List.append_assoc]

/-- Helper: no terminal event among pure delta fragments. -/
theorem countDone_deltas (ms : List WvMsg)
    (h : ∀ m ∈ ms, isDeltaMsg m = true) : countDone ms = 0 := by
  unfold countDone
  rw [List.countP_eq_zero]
  intro m hm
  have := h m hm
  cases m with
  | aiDelta d => simp
  | aiDone t => simp [isDeltaMsg] at this

/-- C4: when the streaming connection fails after chunks that produced only delta fragments, the relay emits those deltas, then one synthetic error fragment, then exactly one terminal `aiDone` with null text; the consumer ends with the pending id removed and the concatenated delta text plus the error fragment. -/
theorem relayFail_resolves (chunks : List (List Char)) (errMsg : List Char)
    (h : ∀ m ∈ (chunks.foldl feedData ([], [])).2, isDeltaMsg m = true) :
    relayRunFail chunks errMsg =
      (chunks.foldl feedData ([], [])).2 ++
        [WvMsg.aiDelta (Json.str (("❌ Backend error: ").toList ++ errMsg)),
         WvMsg.aiDone Json.null] ∧
    countDone (relayRunFail chunks errMsg) = 1 ∧
    consumerRun (relayRunFail chunks errMsg) =
      BubbleState.mk false
        (deltaTexts (chunks.foldl feedData ([], [])).2 ++
          (("❌ Backend error: ").toList ++ errMsg)) := by
  refine ⟨rfl, ?_, ?_⟩
  · unfold relayRunFail countDone
    rw [List.countP_append]
    have h0 := countDone_deltas _ h
    unfold countDone at h0
    rw [h0]
    rfl
  · unfold consumerRun relayRunFail
    rw [List.foldl_append,
        consumer_deltas _ (BubbleState.mk true []) rfl h]
    have hne : (("❌ Backend error: ").toList ++ errMsg).isEmpty = false := by
      simp
    simp [applyWv, jsTruthy, jsToString, hne, List.append_assoc]

/-- Witness for C4 at a concrete one-delta stream cut by an error. -/
theorem relayFail_resolves_witness :
    countDone (relayRunFail [("\x7b\"delta\":\"Hi\"\x7d\n").toList] ("reset").toList) = 1 ∧
    consumerRun (relayRunFail [("\x7b\"delta\":\"Hi\"\x7d\n").toList] ("reset").toList) =
      BubbleState.mk false ("Hi❌ Backend error: reset").toList := by
  have h := relayFail_resolves [("\x7b\"delta\":\"Hi\"\x7d\n").toList] ("reset").toList
    (by decide)
  exact ⟨h.2.1, h.2.2.trans (by decide)⟩

set_option maxRecDepth 10000 in
/-- Counterexample to C7 as stated: for a python fence whose body contains a single backtick, and for one whose body contains a blank line, the rendered output does not contain the code block with the body verbatim (modulo trimming and escaping); the later inline-code and paragraph passes rewrite inside the emitted block. -/
theorem renderFence_backtick_cex :
    containsSub (renderMarkdown (("```python\na ` b\n```").toList))
      (langSnippet (("python").toList)) = true ∧
    containsSub (renderMarkdown (("```python\na ` b\n```").toList))
      (codeSnippet (escapeHtml (jsTrim (("a ` b").toList)))) = false ∧
    containsSub (renderMarkdown (("```python\nx\n\ny\n```").toList))
      (codeSnippet (escapeHtml (jsTrim (("x\n\ny").toList)))) = false := by
  refine ⟨by decide, by decide, by decide⟩

/-- Unfolding equation for a replacement step. -/
theorem replaceAllG_cons {α : Type} (ch : α → Char) (mk : Char → α)
    (c : Char) (rep : List Char) (x : α) (xs : List α) :
    replaceAllG ch mk c rep (x :: xs) =
      (if ch x = c then rep.map mk else [x]) ++ replaceAllG ch mk c rep xs := rfl

/-- A global replacement distributes over concatenation. -/
theorem replaceAllG_append {α : Type} (ch : α → Char) (mk : Char → α)
    (c : Char) (rep : List Char) (a b : List α) :
    replaceAllG ch mk c rep (a ++ b) =
      replaceAllG ch mk c rep a ++ replaceAllG ch mk c rep b := by
  induction a with
  | nil => rfl
  | cons x xs ih =>
    rw [List.cons_append, replaceAllG_cons, replaceAllG_cons, ih, List.append_assoc]

/-- Escaping distributes over concatenation. -/
theorem escapeHtml_append (a b : List Char) :
    escapeHtml (a ++ b) = escapeHtml a ++ escapeHtml b := by
  unfold escapeHtml escapeHtmlG
  rw [replaceAllG_append, replaceAllG_append, replaceAllG_append, replaceAllG_append]

/-- Characters of a replacement output: an unreplaced original or a
replacement character. -/
theorem mem_replaceAllG {α : Type} (ch : α → Char) (mk : Char → α)
    (c : Char) (rep : List Char) (s : List α) (x : α)
    (hx : x ∈ replaceAllG ch mk c rep s) :
    (x ∈ s ∧ ch x ≠ c) ∨ x ∈ rep.map mk := by
  induction s with
  | nil => exact absurd hx (by simp [replaceAllG])
  | cons y ys ih =>
    rw [replaceAllG_cons] at hx
    rcases List.mem_append.mp hx with h1 | h2
    · by_cases hy : ch y = c
      · rw [if_pos hy] at h1
        exact Or.inr h1
      · rw [if_neg hy] at h1
        rcases List.mem_singleton.mp h1 with rfl
        exact Or.inl ⟨List.mem_cons_self _ _, hy⟩
    · rcases ih h2 with ⟨hm, hne⟩ | hr
      · exact Or.inl ⟨List.mem_cons_of_mem _ hm, hne⟩
      · exact Or.inr hr

/-- A replacement that never fires is the identity. -/
theorem replaceAllG_id {α : Type} (ch : α → Char) (mk : Char → α)
    (c : Char) (rep : List Char) (s : List α)
    (h : ∀ x ∈ s, ch x ≠ c) : replaceAllG ch mk c rep s = s := by
  induction s with
  | nil => rfl
  | cons y ys ih =>
    rw [replaceAllG_cons, if_neg (h y (List.mem_cons_self _ _)),
        ih (fun x hx => h x (List.mem_cons_of_mem _ hx))]
    rfl

/-- Characters of the escaped string: an unreplaced original that is none of
the four specials, or a character of one of the four entities. -/
theorem mem_escapeHtml (s : List Char) (x : Char) (hx : x ∈ escapeHtml s) :
    (x ∈ s ∧ x ≠ '&' ∧ x ≠ '<' ∧ x ≠ '>' ∧ x ≠ dq) ∨
      (x ∈ ("&amp;").toList ∨ x ∈ ("&lt;").toList ∨ x ∈ ("&gt;").toList ∨
        x ∈ ("&quot;").toList) := by
  unfold escapeHtml escapeHtmlG at hx
  rcases mem_replaceAllG _ _ _ _ _ _ hx with ⟨hx1, hq⟩ | hr
  · rcases mem_replaceAllG _ _ _ _ _ _ hx1 with ⟨hx2, hg⟩ | hr
    · rcases mem_replaceAllG _ _ _ _ _ _ hx2 with ⟨hx3, hl⟩ | hr
      · rcases mem_replaceAllG _ _ _ _ _ _ hx3 with ⟨hx4, ha⟩ | hr
        · exact Or.inl ⟨hx4, ha, hl, hg, hq⟩
        · rw [List.map_id] at hr
          exact Or.inr (Or.inl hr)
      · rw [List.map_id] at hr
        exact Or.inr (Or.inr (Or.inl hr))
    · rw [List.map_id] at hr
      exact Or.inr (Or.inr (Or.inr (Or.inl hr)))
  · rw [List.map_id] at hr
    exact Or.inr (Or.inr (Or.inr (Or.inr hr)))

/-- A character that is neither an entity character nor in the input does
not appear in the escaped input. -/
theorem escapeHtml_not_mem (s : List Char) (c : Char)
    (hc : ¬ (c ∈ ("&amp;").toList ∨ c ∈ ("&lt;").toList ∨ c ∈ ("&gt;").toList ∨
      c ∈ ("&quot;").toList)) (hs : c ∉ s) :
    c ∉ escapeHtml s := by
  intro hx
  rcases mem_escapeHtml s c hx with ⟨hm, -⟩ | hr
  · exact hs hm
  · exact hc hr

/-- The escaped string never contains a raw double quote. -/
theorem escapeHtml_no_dq (s : List Char) : dq ∉ escapeHtml s := by
  intro hx
  rcases mem_escapeHtml s dq hx with ⟨-, -, -, -, h⟩ | hr
  · exact h rfl
  · revert hr; decide

/-- A string fixed by trimming is fixed by each one-sided pass. -/
theorem jsTrim_parts (E : List Char) (h : jsTrim E = E) :
    E.dropWhile jsWsChar = E ∧ E.reverse.dropWhile jsWsChar = E.reverse := by
  have h1 : (E.dropWhile jsWsChar).length ≤ E.length :=
    (List.dropWhile_suffix jsWsChar).sublist.length_le
  have h2 : ((E.dropWhile jsWsChar).reverse.dropWhile jsWsChar).length ≤
      (E.dropWhile jsWsChar).length := by
    have := (List.dropWhile_suffix (l := (E.dropWhile jsWsChar).reverse) jsWsChar).sublist.length_le
    simpa using this
  have hlen : ((E.dropWhile jsWsChar).reverse.dropWhile jsWsChar).length = E.length := by
    have : (jsTrim E).length = E.length := by rw [h]
    unfold jsTrim at this
    simpa using this
  have hA : E.dropWhile jsWsChar = E :=
    (List.dropWhile_suffix jsWsChar).eq_of_length (by omega)
  refine ⟨hA, ?_⟩
  rw [hA] at hlen
  exact (List.dropWhile_suffix jsWsChar).eq_of_length (by simpa using hlen)

/-- Appending a newline to a trim-fixed string trims back to it. -/
theorem jsTrim_append_nl (E : List Char) (h : jsTrim E = E) :
    jsTrim (E ++ ['\n']) = E := by
  rcases jsTrim_parts E h with ⟨hfront, hback⟩
  cases E with
  | nil => rfl
  | cons c E' =>
    have hc : jsWsChar c = false := by
      by_cases hpc : jsWsChar c = true
      · rw [List.dropWhile_cons, if_pos hpc] at hfront
        have := congrArg List.length hfront
        have hle : (E'.dropWhile jsWsChar).length ≤ E'.length :=
          (List.dropWhile_suffix jsWsChar).sublist.length_le
        simp at this
        omega
      · simpa using hpc
    unfold jsTrim
    rw [List.cons_append, List.dropWhile_cons, if_neg (by simp [hc])]
    rw [show (c :: (E' ++ ['\n'])).reverse = '\n' :: (E'.reverse ++ [c]) from by simp]
    rw [List.dropWhile_cons, if_pos (by decide)]
    have hb : (E'.reverse ++ [c]).dropWhile jsWsChar = E'.reverse ++ [c] := by
      have := hback
      rw [List.reverse_cons] at this
      exact this
    rw [hb]
    simp

/-- A triple-backtick test fails on a non-backtick head. -/
theorem startsBq3_false {α : Type} (ch : α → Char) (x : α) (xs : List α)
    (h : ch x ≠ bq) : startsBq3 ch (x :: xs) = false := by
  cases xs with
  | nil => rfl
  | cons y ys =>
    cases ys with
    | nil => rfl
    | cons z zs => simp [startsBq3, h]

/-- Unfolding equation for the lazy close search. -/
theorem findCloseG_cons {α : Type} (ch : α → Char) (x : α) (xs : List α) :
    findCloseG ch (x :: xs) =
      if startsBq3 ch (x :: xs) then some ([], xs.drop 2)
      else
        match findCloseG ch xs with
        | some pr => some (x :: pr.1, pr.2)
        | none => none := rfl

/-- The close search finds the first triple backtick after a clean prefix. -/
theorem findCloseG_append (l r : List Char) (h : ∀ x ∈ l, x ≠ bq) :
    findCloseG id (l ++ bq :: bq :: bq :: r) = some (l, r) := by
  induction l with
  | nil =>
    rw [List.nil_append, findCloseG_cons, if_pos (by simp [startsBq3])]
    rfl
  | cons c l' ih =>
    rw [List.cons_append, findCloseG_cons,
        if_neg (by
          rw [startsBq3_false id c _ (h c (List.mem_cons_self _ _))]
          simp),
        ih (fun x hx => h x (List.mem_cons_of_mem _ hx))]

/-- The inline-code pass is the identity on backtick-free strings. -/
theorem inlineLoopG_id {α : Type} (ch : α → Char) (mkT : Char → α) :
    ∀ (fuel : Nat) (s : List α), (∀ x ∈ s, ch x ≠ bq) →
      inlineLoopG ch mkT fuel s = s := by
  intro fuel
  induction fuel with
  | zero => intro s _; rfl
  | succ n ih =>
    intro s h
    cases s with
    | nil => rfl
    | cons x xs =>
      unfold inlineLoopG
      rw [if_neg (h x (List.mem_cons_self _ _)),
          ih xs (fun y hy => h y (List.mem_cons_of_mem _ hy))]

/-- The paragraph pass is the identity on newline-free strings. -/
theorem paraLoopG_id {α : Type} (ch : α → Char) (mkT : Char → α) :
    ∀ (fuel : Nat) (s : List α), (∀ x ∈ s, ch x ≠ '\n') →
      paraLoopG ch mkT fuel s = s := by
  intro fuel
  induction fuel with
  | zero => intro s _; rfl
  | succ n ih =>
    intro s h
    cases s with
    | nil => rfl
    | cons x xs =>
      unfold paraLoopG
      rw [if_neg (h x (List.mem_cons_self _ _)),
          ih xs (fun y hy => h y (List.mem_cons_of_mem _ hy))]

/-- The fence loop leaves the empty string alone. -/
theorem fenceLoopG_nil {α : Type} (ch : α → Char) (mkT mkE : Char → α)
    (fuel : Nat) : fenceLoopG ch mkT mkE fuel [] = [] := by
  cases fuel with
  | zero => rfl
  | succ n => rfl

/-- Unfolding equations for the post-language fence step. -/
theorem fenceRest_cons {α : Type} (ch : α → Char) (lang : List α) (n : α)
    (rest3 : List α) :
    fenceRest ch lang (n :: rest3) =
      if ch n = '\n' then
        match findCloseG ch rest3 with
        | some pr => some (lang, pr.1, pr.2)
        | none => none
      else none := rfl

/-- The fence regexp matches the head of an escaped python fence. -/
theorem matchFenceAt_python (E : List Char) (hbq : ∀ x ∈ E, x ≠ bq) :
    matchFenceAtG id
      (bq :: bq :: bq :: ('p' :: 'y' :: 't' :: 'h' :: 'o' :: 'n' :: '\n' ::
        (E ++ '\n' :: bq :: bq :: bq :: []))) =
      some (("python").toList, E ++ ['\n'], []) := by
  unfold matchFenceAtG
  rw [if_pos (by simp [startsBq3])]
  have hdrop : (bq :: bq :: bq :: ('p' :: 'y' :: 't' :: 'h' :: 'o' :: 'n' :: '\n' ::
      (E ++ '\n' :: bq :: bq :: bq :: []))).drop 3 =
      'p' :: 'y' :: 't' :: 'h' :: 'o' :: 'n' :: '\n' ::
        (E ++ '\n' :: bq :: bq :: bq :: []) := rfl
  rw [hdrop]
  have htake : List.takeWhile (fun a => isWordChar (id a))
      ('p' :: 'y' :: 't' :: 'h' :: 'o' :: 'n' :: '\n' ::
        (E ++ '\n' :: bq :: bq :: bq :: [])) = ("python").toList := by
    rw [List.takeWhile_cons, if_pos (by decide), List.takeWhile_cons, if_pos (by decide),
        List.takeWhile_cons, if_pos (by decide), List.takeWhile_cons, if_pos (by decide),
        List.takeWhile_cons, if_pos (by decide), List.takeWhile_cons, if_pos (by decide),
        List.takeWhile_cons, if_neg (by decide)]
    rfl
  have hdropw : List.dropWhile (fun a => isWordChar (id a))
      ('p' :: 'y' :: 't' :: 'h' :: 'o' :: 'n' :: '\n' ::
        (E ++ '\n' :: bq :: bq :: bq :: [])) =
      '\n' :: (E ++ '\n' :: bq :: bq :: bq :: []) := by
    rw [List.dropWhile_cons, if_pos (by decide), List.dropWhile_cons, if_pos (by decide),
        List.dropWhile_cons, if_pos (by decide), List.dropWhile_cons, if_pos (by decide),
        List.dropWhile_cons, if_pos (by decide), List.dropWhile_cons, if_pos (by decide),
        List.dropWhile_cons, if_neg (by decide)]
  have hclose : findCloseG id (E ++ '\n' :: bq :: bq :: bq :: []) =
      some (E ++ ['\n'], []) := by
    have := findCloseG_append (E ++ ['\n']) []
      (by
        intro x hx
        rcases List.mem_append.mp hx with hx1 | hx2
        · exact hbq x hx1
        · rcases List.mem_singleton.mp hx2 with rfl
          decide)
    rw [List.append_assoc] at this
    exact this
  rw [htake, hdropw, fenceRest_cons,
      if_pos (show id '\n' = '\n' from rfl), hclose]

/-- Unfolding equation for the fence scan. -/
theorem fenceLoopG_cons {α : Type} (ch : α → Char) (mkT mkE : Char → α)
    (fuel : Nat) (x : α) (xs : List α) :
    fenceLoopG ch mkT mkE (fuel + 1) (x :: xs) =
      match matchFenceAtG ch (x :: xs) with
      | some (lang, body, rest) =>
        fenceCallbackG ch mkT mkE lang body ++ fenceLoopG ch mkT mkE fuel rest
      | none => x :: fenceLoopG ch mkT mkE fuel xs := rfl

/-- The fence pass on an escaped python fence is the callback alone. -/
theorem fenceG_python (E : List Char) (hbq : ∀ x ∈ E, x ≠ bq) :
    fenceG id id id
      (bq :: bq :: bq :: ('p' :: 'y' :: 't' :: 'h' :: 'o' :: 'n' :: '\n' ::
        (E ++ '\n' :: bq :: bq :: bq :: []))) =
      fenceCallbackG id id id (("python").toList) (E ++ ['\n']) := by
  unfold fenceG
  rw [show (bq :: bq :: bq :: ('p' :: 'y' :: 't' :: 'h' :: 'o' :: 'n' :: '\n' ::
        (E ++ '\n' :: bq :: bq :: bq :: []))).length =
      ('p' :: 'y' :: 't' :: 'h' :: 'o' :: 'n' :: '\n' ::
        (E ++ '\n' :: bq :: bq :: bq :: [])).length + 2 + 1 from by simp]
  rw [fenceLoopG_cons, matchFenceAt_python E hbq]
  simp [fenceLoopG_nil]

/-- The generic trim at the identity instance is the source trim. -/
theorem jsTrimG_id (s : List Char) : jsTrimG id s = jsTrim s := rfl

/-- The callback on a clean single-line python fence body. -/
theorem fenceCallback_python (E : List Char) (hdq : dq ∉ E)
    (htrim : jsTrim (E ++ ['\n']) = E) :
    fenceCallbackG id id id (("python").toList) (E ++ ['\n']) =
      ("<div class=\"code-block\"><div class=\"code-toolbar\"><span class=\"code-lang\">").toList ++
      ("python").toList ++
      ("</span><div><button class=\"copy-btn\" data-action=\"copy\">Copy</button><button class=\"copy-btn\" data-action=\"insert\">Insert</button></div></div><pre><code data-code=\"").toList ++
      E ++ ("\">").toList ++ E ++ ("</code></pre></div>").toList := by
  unfold fenceCallbackG
  rw [jsTrimG_id, htrim,
      replaceAllG_id id id dq _ E (fun x hx he => hdq (he ▸ hx)),
      if_neg (by decide), List.map_id, List.map_id, List.map_id, List.map_id]

/-- A pattern is a prefix of itself extended. -/
theorem isPrefixL_self (pat y : List Char) : isPrefixL pat (pat ++ y) = true := by
  induction pat with
  | nil => rfl
  | cons c cs ih => simp [isPrefixL, ih]

/-- Unfolding equation for the substring test. -/
theorem containsSub_cons (x : Char) (xs pat : List Char) :
    containsSub (x :: xs) pat =
      if isPrefixL pat (x :: xs) then true else containsSub xs pat := rfl

/-- A pattern occurs at the front. -/
theorem containsSub_here (pat y : List Char) : containsSub (pat ++ y) pat = true := by
  unfold containsSub
  rw [isPrefixL_self]
  rfl

/-- Substring occurrence is stable under prepending. -/
theorem containsSub_append_left (s t pat : List Char)
    (h : containsSub t pat = true) : containsSub (s ++ t) pat = true := by
  induction s with
  | nil => simpa using h
  | cons c s' ih =>
    rw [List.cons_append, containsSub_cons]
    by_cases hp : isPrefixL pat (c :: (s' ++ t)) = true
    · rw [if_pos hp]
    · rw [if_neg hp]
      exact ih

/-- A pattern occurs anywhere in the middle. -/
theorem containsSub_mid (x y pat : List Char) :
    containsSub (x ++ (pat ++ y)) pat = true :=
  containsSub_append_left x _ _ (containsSub_here pat y)

set_option maxRecDepth 40000 in
/-- C7 (amended): for a fenced block with language tag python whose body is a single trim-stable line containing no backtick and no newline, the output is exactly the code-block template: the language label python is preserved and the escaped body appears verbatim in the `data-code` attribute and in the code element. -/
theorem renderFence_singleLine (body : List Char)
    (h1 : bq ∉ body) (h2 : '\n' ∉ body)
    (h3 : jsTrim (escapeHtml body) = escapeHtml body) :
    renderMarkdown ((("```python\n").toList ++ body) ++ ("\n```").toList) =
      ("<p><div class=\"code-block\"><div class=\"code-toolbar\"><span class=\"code-lang\">python</span><div><button class=\"copy-btn\" data-action=\"copy\">Copy</button><button class=\"copy-btn\" data-action=\"insert\">Insert</button></div></div><pre><code data-code=\"").toList ++
        escapeHtml body ++ ("\">").toList ++ escapeHtml body ++
        ("</code></pre></div></p>").toList ∧
    containsSub (renderMarkdown ((("```python\n").toList ++ body) ++ ("\n```").toList))
      (langSnippet (("python").toList)) = true ∧
    containsSub (renderMarkdown ((("```python\n").toList ++ body) ++ ("\n```").toList))
      (codeSnippet (escapeHtml body)) = true := by
  have hEbq : bq ∉ escapeHtml body := escapeHtml_not_mem body bq (by decide) h1
  have hEnl : '\n' ∉ escapeHtml body := escapeHtml_not_mem body '\n' (by decide) h2
  have hEdq : dq ∉ escapeHtml body := escapeHtml_no_dq body
  have hesc : escapeHtml ((("```python\n").toList ++ body) ++ ("\n```").toList) =
      bq :: bq :: bq :: ('p' :: 'y' :: 't' :: 'h' :: 'o' :: 'n' :: '\n' ::
        (escapeHtml body ++ '\n' :: bq :: bq :: bq :: [])) := by
    rw [escapeHtml_append, escapeHtml_append,
        show escapeHtml (("```python\n").toList) = ("```python\n").toList from rfl,
        show escapeHtml (("\n```").toList) = ("\n```").toList from rfl,
        show ("```python\n").toList =
          bq :: bq :: bq :: 'p' :: 'y' :: 't' :: 'h' :: 'o' :: 'n' :: '\n' :: [] from rfl,
        show ("\n```").toList = '\n' :: bq :: bq :: bq :: [] from rfl]
    simp
  have ta1 : ∀ x ∈ ("<div class=\"code-block\"><div class=\"code-toolbar\"><span class=\"code-lang\">").toList, x ≠ bq := by decide
  have ta2 : ∀ x ∈ ("python").toList, x ≠ bq := by decide
  have ta3 : ∀ x ∈ ("</span><div><button class=\"copy-btn\" data-action=\"copy\">Copy</button><button class=\"copy-btn\" data-action=\"insert\">Insert</button></div></div><pre><code data-code=\"").toList, x ≠ bq := by decide
  have ta4 : ∀ x ∈ ("\">").toList, x ≠ bq := by decide
  have ta5 : ∀ x ∈ ("</code></pre></div>").toList, x ≠ bq := by decide
  have hallbq : ∀ x ∈
      ("<div class=\"code-block\"><div class=\"code-toolbar\"><span class=\"code-lang\">").toList ++
      ("python").toList ++
      ("</span><div><button class=\"copy-btn\" data-action=\"copy\">Copy</button><button class=\"copy-btn\" data-action=\"insert\">Insert</button></div></div><pre><code data-code=\"").toList ++
      escapeHtml body ++ ("\">").toList ++ escapeHtml body ++
      ("</code></pre></div>").toList, x ≠ bq := by
    intro x hx
    simp only [List.append_assoc, List.mem_append] at hx
    rcases hx with hx | hx | hx | hx | hx | hx | hx
    · exact ta1 x hx
    · exact ta2 x hx
    · exact ta3 x hx
    · exact fun he => hEbq (he ▸ hx)
    · exact ta4 x hx
    · exact fun he => hEbq (he ▸ hx)
    · exact ta5 x hx
  have tb1 : ∀ x ∈ ("<div class=\"code-block\"><div class=\"code-toolbar\"><span class=\"code-lang\">").toList, x ≠ '\n' := by decide
  have tb2 : ∀ x ∈ ("python").toList, x ≠ '\n' := by decide
  have tb3 : ∀ x ∈ ("</span><div><button class=\"copy-btn\" data-action=\"copy\">Copy</button><button class=\"copy-btn\" data-action=\"insert\">Insert</button></div></div><pre><code data-code=\"").toList, x ≠ '\n' := by decide
  have tb4 : ∀ x ∈ ("\">").toList, x ≠ '\n' := by decide
  have tb5 : ∀ x ∈ ("</code></pre></div>").toList, x ≠ '\n' := by decide
  have hallnl : ∀ x ∈
      ("<div class=\"code-block\"><div class=\"code-toolbar\"><span class=\"code-lang\">").toList ++
      ("python").toList ++
      ("</span><div><button class=\"copy-btn\" data-action=\"copy\">Copy</button><button class=\"copy-btn\" data-action=\"insert\">Insert</button></div></div><pre><code data-code=\"").toList ++
      escapeHtml body ++ ("\">").toList ++ escapeHtml body ++
      ("</code></pre></div>").toList, x ≠ '\n' := by
    intro x hx
    simp only [List.append_assoc, List.mem_append] at hx
    rcases hx with hx | hx | hx | hx | hx | hx | hx
    · exact tb1 x hx
    · exact tb2 x hx
    · exact tb3 x hx
    · exact fun he => hEnl (he ▸ hx)
    · exact tb4 x hx
    · exact fun he => hEnl (he ▸ hx)
    · exact tb5 x hx
  have hmain : renderMarkdown ((("```python\n").toList ++ body) ++ ("\n```").toList) =
      ("<p><div class=\"code-block\"><div class=\"code-toolbar\"><span class=\"code-lang\">python</span><div><button class=\"copy-btn\" data-action=\"copy\">Copy</button><button class=\"copy-btn\" data-action=\"insert\">Insert</button></div></div><pre><code data-code=\"").toList ++
        escapeHtml body ++ ("\">").toList ++ escapeHtml body ++
        ("</code></pre></div></p>").toList := by
    unfold renderMarkdown renderMarkdownG
    rw [if_neg (by
      rw [show (("```python\n").toList ++ body) ++ ("\n```").toList =
        bq :: (((("``python\n").toList ++ body)) ++ ("\n```").toList) from by rfl]
      simp)]
    rw [show escapeHtmlG id id ((("```python\n").toList ++ body) ++ ("\n```").toList) =
          bq :: bq :: bq :: ('p' :: 'y' :: 't' :: 'h' :: 'o' :: 'n' :: '\n' ::
            (escapeHtml body ++ '\n' :: bq :: bq :: bq :: [])) from hesc]
    rw [show fenceG id id id
          (bq :: bq :: bq :: ('p' :: 'y' :: 't' :: 'h' :: 'o' :: 'n' :: '\n' ::
            (escapeHtml body ++ '\n' :: bq :: bq :: bq :: []))) =
          fenceCallbackG id id id (("python").toList) (escapeHtml body ++ ['\n']) from
        fenceG_python (escapeHtml body) (fun x hx he => hEbq (he ▸ hx))]
    rw [fenceCallback_python (escapeHtml body) hEdq
        (jsTrim_append_nl (escapeHtml body) h3)]
    rw [show inlineG id id
          (("<div class=\"code-block\"><div class=\"code-toolbar\"><span class=\"code-lang\">").toList ++
           ("python").toList ++
           ("</span><div><button class=\"copy-btn\" data-action=\"copy\">Copy</button><button class=\"copy-btn\" data-action=\"insert\">Insert</button></div></div><pre><code data-code=\"").toList ++
           escapeHtml body ++ ("\">").toList ++ escapeHtml body ++
           ("</code></pre></div>").toList) = _ from inlineLoopG_id id id _ _ hallbq]
    rw [show paraG id id
          (("<div class=\"code-block\"><div class=\"code-toolbar\"><span class=\"code-lang\">").toList ++
           ("python").toList ++
           ("</span><div><button class=\"copy-btn\" data-action=\"copy\">Copy</button><button class=\"copy-btn\" data-action=\"insert\">Insert</button></div></div><pre><code data-code=\"").toList ++
           escapeHtml body ++ ("\">").toList ++ escapeHtml body ++
           ("</code></pre></div>").toList) = _ from paraLoopG_id id id _ _ hallnl]
    rw [show brG id id
          (("<div class=\"code-block\"><div class=\"code-toolbar\"><span class=\"code-lang\">").toList ++
           ("python").toList ++
           ("</span><div><button class=\"copy-btn\" data-action=\"copy\">Copy</button><button class=\"copy-btn\" data-action=\"insert\">Insert</button></div></div><pre><code data-code=\"").toList ++
           escapeHtml body ++ ("\">").toList ++ escapeHtml body ++
           ("</code></pre></div>").toList) = _ from
        replaceAllG_id id id '\n' _ _ hallnl]
    rw [List.map_id, List.map_id]
    rw [show ("<p><div class=\"code-block\"><div class=\"code-toolbar\"><span class=\"code-lang\">python</span><div><button class=\"copy-btn\" data-action=\"copy\">Copy</button><button class=\"copy-btn\" data-action=\"insert\">Insert</button></div></div><pre><code data-code=\"").toList =
          ("<p>").toList ++
          ("<div class=\"code-block\"><div class=\"code-toolbar\"><span class=\"code-lang\">").toList ++
          ("python").toList ++
          ("</span><div><button class=\"copy-btn\" data-action=\"copy\">Copy</button><button class=\"copy-btn\" data-action=\"insert\">Insert</button></div></div><pre><code data-code=\"").toList from rfl]
    rw [show ("</code></pre></div></p>").toList =
          ("</code></pre></div>").toList ++ ("</p>").toList from rfl]
    simp [List.append_assoc]
  refine ⟨hmain, ?_, ?_⟩
  · rw [hmain]
    have hlist :
        ("<p><div class=\"code-block\"><div class=\"code-toolbar\"><span class=\"code-lang\">python</span><div><button class=\"copy-btn\" data-action=\"copy\">Copy</button><button class=\"copy-btn\" data-action=\"insert\">Insert</button></div></div><pre><code data-code=\"").toList ++
          escapeHtml body ++ ("\">").toList ++ escapeHtml body ++
          ("</code></pre></div></p>").toList =
        ("<p><div class=\"code-block\"><div class=\"code-toolbar\">").toList ++
          (langSnippet (("python").toList) ++
            (("<div><button class=\"copy-btn\" data-action=\"copy\">Copy</button><button class=\"copy-btn\" data-action=\"insert\">Insert</button></div></div><pre><code data-code=\"").toList ++
             escapeHtml body ++ ("\">").toList ++ escapeHtml body ++
             ("</code></pre></div></p>").toList)) := by
      rw [show ("<p><div class=\"code-block\"><div class=\"code-toolbar\"><span class=\"code-lang\">python</span><div><button class=\"copy-btn\" data-action=\"copy\">Copy</button><button class=\"copy-btn\" data-action=\"insert\">Insert</button></div></div><pre><code data-code=\"").toList =
            ("<p><div class=\"code-block\"><div class=\"code-toolbar\">").toList ++
            (("<span class=\"code-lang\">").toList ++ ("python").toList ++
              ("</span>").toList) ++
            ("<div><button class=\"copy-btn\" data-action=\"copy\">Copy</button><button class=\"copy-btn\" data-action=\"insert\">Insert</button></div></div><pre><code data-code=\"").toList from rfl]
      unfold langSnippet
      simp [List.append_assoc]
    rw [hlist]
    exact containsSub_mid _ _ _
  · rw [hmain]
    have hlist :
        ("<p><div class=\"code-block\"><div class=\"code-toolbar\"><span class=\"code-lang\">python</span><div><button class=\"copy-btn\" data-action=\"copy\">Copy</button><button class=\"copy-btn\" data-action=\"insert\">Insert</button></div></div><pre><code data-code=\"").toList ++
          escapeHtml body ++ ("\">").toList ++ escapeHtml body ++
          ("</code></pre></div></p>").toList =
        ("<p><div class=\"code-block\"><div class=\"code-toolbar\"><span class=\"code-lang\">python</span><div><button class=\"copy-btn\" data-action=\"copy\">Copy</button><button class=\"copy-btn\" data-action=\"insert\">Insert</button></div></div>").toList ++
          (codeSnippet (escapeHtml body) ++ ("</div></p>").toList) := by
      rw [show ("<p><div class=\"code-block\"><div class=\"code-toolbar\"><span class=\"code-lang\">python</span><div><button class=\"copy-btn\" data-action=\"copy\">Copy</button><button class=\"copy-btn\" data-action=\"insert\">Insert</button></div></div><pre><code data-code=\"").toList =
            ("<p><div class=\"code-block\"><div class=\"code-toolbar\"><span class=\"code-lang\">python</span><div><button class=\"copy-btn\" data-action=\"copy\">Copy</button><button class=\"copy-btn\" data-action=\"insert\">Insert</button></div></div>").toList ++
            ("<pre><code data-code=\"").toList from rfl]
      rw [show ("</code></pre></div></p>").toList =
            ("</code></pre>").toList ++ ("</div></p>").toList from rfl]
      unfold codeSnippet
      simp [List.append_assoc]
    rw [hlist]
    exact containsSub_mid _ _ _

/-- Witness for C7 at the concrete body `print(1)`. -/
theorem renderFence_singleLine_witness :
    (bq ∉ ("print(1)").toList ∧ '\n' ∉ ("print(1)").toList ∧
      jsTrim (escapeHtml (("print(1)").toList)) = escapeHtml (("print(1)").toList)) ∧
    containsSub
      (renderMarkdown ((("```python\n").toList ++ ("print(1)").toList) ++ ("\n```").toList))
      (codeSnippet (escapeHtml (("print(1)").toList))) = true := by
  refine ⟨⟨by decide, by decide, by decide⟩, ?_⟩
  exact (renderFence_singleLine (("print(1)").toList) (by decide) (by decide)
    (by decide)).2.2

/-- Characters of the generic escape output: an unreplaced original whose
character is none of the four specials, or an inserted entity character. -/
theorem mem_escapeHtmlG {α : Type} (ch : α → Char) (mk : Char → α)
    (s : List α) (x : α) (hx : x ∈ escapeHtmlG ch mk s) :
    (x ∈ s ∧ ch x ≠ '&' ∧ ch x ≠ '<' ∧ ch x ≠ '>' ∧ ch x ≠ dq) ∨
      ∃ c, x = mk c := by
  unfold escapeHtmlG at hx
  rcases mem_replaceAllG _ _ _ _ _ _ hx with ⟨hx1, hq⟩ | hr
  · rcases mem_replaceAllG _ _ _ _ _ _ hx1 with ⟨hx2, hg⟩ | hr
    · rcases mem_replaceAllG _ _ _ _ _ _ hx2 with ⟨hx3, hl⟩ | hr
      · rcases mem_replaceAllG _ _ _ _ _ _ hx3 with ⟨hx4, ha⟩ | hr
        · exact Or.inl ⟨hx4, ha, hl, hg, hq⟩
        · rcases List.mem_map.mp hr with ⟨c, -, rfl⟩; exact Or.inr ⟨c, rfl⟩
      · rcases List.mem_map.mp hr with ⟨c, -, rfl⟩; exact Or.inr ⟨c, rfl⟩
    · rcases List.mem_map.mp hr with ⟨c, -, rfl⟩; exact Or.inr ⟨c, rfl⟩
  · rcases List.mem_map.mp hr with ⟨c, -, rfl⟩; exact Or.inr ⟨c, rfl⟩

/-- Trimming only keeps characters of the input. -/
theorem jsTrimG_subset {α : Type} (ch : α → Char) (s : List α) :
    ∀ x ∈ jsTrimG ch s, x ∈ s := by
  intro x hx
  unfold jsTrimG at hx
  rw [List.mem_reverse] at hx
  have h2 := List.dropWhile_subset (l :=
    (s.dropWhile (fun a => jsWsChar (ch a))).reverse) (fun a => jsWsChar (ch a)) hx
  rw [List.mem_reverse] at h2
  exact List.dropWhile_subset _ h2

/-- The close search returns pieces of its input. -/
theorem findCloseG_subset {α : Type} (ch : α → Char) :
    ∀ (s b r : List α), findCloseG ch s = some (b, r) →
      (∀ x ∈ b, x ∈ s) ∧ (∀ x ∈ r, x ∈ s) := by
  intro s
  induction s with
  | nil => intro b r h; exact absurd h (by simp [findCloseG])
  | cons y ys ih =>
    intro b r h
    rw [findCloseG_cons] at h
    split at h
    · simp only [Option.some.injEq, Prod.mk.injEq] at h
      obtain ⟨rfl, rfl⟩ := h
      refine ⟨by simp, ?_⟩
      intro x hx
      exact List.mem_cons_of_mem _ (List.drop_subset 2 ys hx)
    · split at h
      · rename_i pr hfc
        simp only [Option.some.injEq, Prod.mk.injEq] at h
        obtain ⟨rfl, rfl⟩ := h
        rcases ih pr.1 pr.2 hfc with ⟨hb, hr⟩
        constructor
        · intro x hx
          rcases List.mem_cons.mp hx with rfl | hx2
          · exact List.mem_cons_self _ _
          · exact List.mem_cons_of_mem _ (hb x hx2)
        · intro x hx
          exact List.mem_cons_of_mem _ (hr x hx)
      · exact absurd h (by simp)

/-- The fence matcher returns pieces of its input. -/
theorem matchFenceAtG_subset {α : Type} (ch : α → Char) (s : List α)
    (lang body rest : List α)
    (h : matchFenceAtG ch s = some (lang, body, rest)) :
    (∀ x ∈ lang, x ∈ s) ∧ (∀ x ∈ body, x ∈ s) ∧ (∀ x ∈ rest, x ∈ s) := by
  unfold matchFenceAtG at h
  split at h
  · cases hd : (s.drop 3).dropWhile (fun a => isWordChar (ch a)) with
    | nil => rw [hd] at h; exact absurd h (by simp [fenceRest])
    | cons n rest3 =>
      rw [hd, fenceRest_cons] at h
      split at h
      · split at h
        · rename_i pr hfc
          simp only [Option.some.injEq, Prod.mk.injEq] at h
          obtain ⟨rfl, rfl, rfl⟩ := h
          have hsub3 : ∀ x ∈ rest3, x ∈ s := by
            intro x hx
            have hx2 : x ∈ (s.drop 3).dropWhile (fun a => isWordChar (ch a)) := by
              rw [hd]; exact List.mem_cons_of_mem _ hx
            exact List.drop_subset 3 s (List.dropWhile_subset _ hx2)
          rcases findCloseG_subset ch rest3 pr.1 pr.2 hfc with ⟨hb, hr⟩
          refine ⟨?_, ?_, ?_⟩
          · intro x hx
            exact List.drop_subset 3 s (List.takeWhile_subset _ hx)
          · intro x hx; exact hsub3 x (hb x hx)
          · intro x hx; exact hsub3 x (hr x hx)
        · exact absurd h (by simp)
      · exact absurd h (by simp)
  · exact absurd h (by simp)

/-- Characters of the fence callback output: from the language capture, from
the body capture, or inserted template/entity characters. -/
theorem mem_fenceCallbackG {α : Type} (ch : α → Char) (mkT mkE : Char → α)
    (lang body : List α) (x : α) (hx : x ∈ fenceCallbackG ch mkT mkE lang body) :
    x ∈ lang ∨ x ∈ body ∨ (∃ c, x = mkT c) ∨ (∃ c, x = mkE c) := by
  unfold fenceCallbackG at hx
  simp only [List.append_assoc, List.mem_append] at hx
  rcases hx with hx | hx | hx | hx | hx | hx | hx
  · rcases List.mem_map.mp hx with ⟨c, -, rfl⟩; exact Or.inr (Or.inr (Or.inl ⟨c, rfl⟩))
  · by_cases he : lang.isEmpty = true
    · rw [if_pos he] at hx
      rcases List.mem_map.mp hx with ⟨c, -, rfl⟩; exact Or.inr (Or.inr (Or.inl ⟨c, rfl⟩))
    · rw [if_neg he] at hx
      exact Or.inl hx
  · rcases List.mem_map.mp hx with ⟨c, -, rfl⟩; exact Or.inr (Or.inr (Or.inl ⟨c, rfl⟩))
  · rcases mem_replaceAllG _ _ _ _ _ _ hx with ⟨hm, -⟩ | hr
    · exact Or.inr (Or.inl (jsTrimG_subset ch body x hm))
    · rcases List.mem_map.mp hr with ⟨c, -, rfl⟩
      exact Or.inr (Or.inr (Or.inr ⟨c, rfl⟩))
  · rcases List.mem_map.mp hx with ⟨c, -, rfl⟩; exact Or.inr (Or.inr (Or.inl ⟨c, rfl⟩))
  · exact Or.inr (Or.inl (jsTrimG_subset ch body x hx))
  · rcases List.mem_map.mp hx with ⟨c, -, rfl⟩; exact Or.inr (Or.inr (Or.inl ⟨c, rfl⟩))

/-- Characters of the fence pass output: from the input or inserted. -/
theorem mem_fenceLoopG {α : Type} (ch : α → Char) (mkT mkE : Char → α) :
    ∀ (fuel : Nat) (s : List α) (x : α), x ∈ fenceLoopG ch mkT mkE fuel s →
      x ∈ s ∨ (∃ c, x = mkT c) ∨ (∃ c, x = mkE c) := by
  intro fuel
  induction fuel with
  | zero => intro s x hx; exact Or.inl hx
  | succ n ih =>
    intro s x hx
    cases s with
    | nil => exact Or.inl hx
    | cons y ys =>
      rw [fenceLoopG_cons] at hx
      cases hm : matchFenceAtG ch (y :: ys) with
      | some tr =>
        rw [hm] at hx
        rcases tr with ⟨lang, body, rest⟩
        rcases matchFenceAtG_subset ch (y :: ys) lang body rest hm with ⟨hl, hb, hr⟩
        rcases List.mem_append.mp hx with hx1 | hx2
        · rcases mem_fenceCallbackG ch mkT mkE lang body x hx1 with h | h | h | h
          · exact Or.inl (hl x h)
          · exact Or.inl (hb x h)
          · exact Or.inr (Or.inl h)
          · exact Or.inr (Or.inr h)
        · rcases ih rest x hx2 with h | h
          · exact Or.inl (hr x h)
          · exact Or.inr h
      | none =>
        rw [hm] at hx
        rcases List.mem_cons.mp hx with rfl | hx2
        · exact Or.inl (List.mem_cons_self _ _)
        · rcases ih ys x hx2 with h | h
          · exact Or.inl (List.mem_cons_of_mem _ h)
          · exact Or.inr h

/-- Characters of the inline pass output: from the input or templates. -/
theorem mem_inlineLoopG {α : Type} (ch : α → Char) (mkT : Char → α) :
    ∀ (fuel : Nat) (s : List α) (x : α), x ∈ inlineLoopG ch mkT fuel s →
      x ∈ s ∨ ∃ c, x = mkT c := by
  intro fuel
  induction fuel with
  | zero => intro s x hx; exact Or.inl hx
  | succ n ih =>
    intro s x hx
    cases s with
    | nil => exact Or.inl hx
    | cons y ys =>
      unfold inlineLoopG at hx
      split at hx
      · split at hx
        · rename_i r rs c cs hdrop htake
          split at hx
          · simp only [List.append_assoc, List.mem_append] at hx
            rcases hx with hx | hx | hx | hx
            · rcases List.mem_map.mp hx with ⟨c2, -, rfl⟩; exact Or.inr ⟨c2, rfl⟩
            · exact Or.inl (List.mem_cons_of_mem _ (List.takeWhile_subset _ hx))
            · rcases List.mem_map.mp hx with ⟨c2, -, rfl⟩; exact Or.inr ⟨c2, rfl⟩
            · rcases ih rs x hx with h | h
              · have : x ∈ ys.dropWhile (fun a => ¬ (ch a = bq ∨ ch a = '\n')) := by
                  rw [hdrop]; exact List.mem_cons_of_mem _ h
                exact Or.inl (List.mem_cons_of_mem _ (List.dropWhile_subset _ this))
              · exact Or.inr h
          · rcases List.mem_cons.mp hx with rfl | hx2
            · exact Or.inl (List.mem_cons_self _ _)
            · rcases ih ys x hx2 with h | h
              · exact Or.inl (List.mem_cons_of_mem _ h)
              · exact Or.inr h
        · rcases List.mem_cons.mp hx with rfl | hx2
          · exact Or.inl (List.mem_cons_self _ _)
          · rcases ih ys x hx2 with h | h
            · exact Or.inl (List.mem_cons_of_mem _ h)
            · exact Or.inr h
      · rcases List.mem_cons.mp hx with rfl | hx2
        · exact Or.inl (List.mem_cons_self _ _)
        · rcases ih ys x hx2 with h | h
          · exact Or.inl (List.mem_cons_of_mem _ h)
          · exact Or.inr h

/-- Characters of the paragraph pass output: from the input or templates. -/
theorem mem_paraLoopG {α : Type} (ch : α → Char) (mkT : Char → α) :
    ∀ (fuel : Nat) (s : List α) (x : α), x ∈ paraLoopG ch mkT fuel s →
      x ∈ s ∨ ∃ c, x = mkT c := by
  intro fuel
  induction fuel with
  | zero => intro s x hx; exact Or.inl hx
  | succ n ih =>
    intro s x hx
    cases s with
    | nil => exact Or.inl hx
    | cons y ys =>
      unfold paraLoopG at hx
      split at hx
      · split at hx
        · rcases List.mem_cons.mp hx with rfl | hx2
          · exact Or.inl (List.mem_cons_self _ _)
          · rcases ih ys x hx2 with h | h
            · exact Or.inl (List.mem_cons_of_mem _ h)
            · exact Or.inr h
        · rcases List.mem_append.mp hx with hx1 | hx2
          · rcases List.mem_map.mp hx1 with ⟨c2, -, rfl⟩; exact Or.inr ⟨c2, rfl⟩
          · rcases ih _ x hx2 with h | h
            · exact Or.inl (List.mem_cons_of_mem _ (List.dropWhile_subset _ h))
            · exact Or.inr h
      · rcases List.mem_cons.mp hx with rfl | hx2
        · exact Or.inl (List.mem_cons_self _ _)
        · rcases ih ys x hx2 with h | h
          · exact Or.inl (List.mem_cons_of_mem _ h)
          · exact Or.inr h

/-- Every character of the tagged renderer output that was copied raw from
the input is none of the four HTML-special characters. -/
theorem renderMarkdownT_rawSafe (md : List Char) :
    ∀ x ∈ renderMarkdownT md, rawSafeChar x = true := by
  intro x hx
  unfold renderMarkdownT renderMarkdownG at hx
  by_cases hem : (tagRaw md).isEmpty = true
  · rw [if_pos hem] at hx; exact absurd hx (by simp)
  · rw [if_neg hem] at hx
    unfold brG paraG inlineG fenceG at hx
    simp only [List.append_assoc, List.mem_append] at hx
    rcases hx with hx | hx | hx
    · rcases List.mem_map.mp hx with ⟨c, -, rfl⟩; rfl
    · rcases mem_replaceAllG _ _ _ _ _ _ hx with ⟨hx1, -⟩ | hr
      · rcases mem_paraLoopG _ _ _ _ _ hx1 with hx2 | ⟨c, rfl⟩
        · rcases mem_inlineLoopG _ _ _ _ _ hx2 with hx3 | ⟨c, rfl⟩
          · rcases mem_fenceLoopG _ _ _ _ _ _ hx3 with hx4 | ⟨c, rfl⟩ | ⟨c, rfl⟩
            · rcases mem_escapeHtmlG _ _ _ _ hx4 with ⟨hx5, ha, hl, hg, hq⟩ | ⟨c, rfl⟩
              · rcases List.mem_map.mp hx5 with ⟨c0, -, rfl⟩
                simp only [TChar.c] at ha hl hg hq
                unfold rawSafeChar
                simp [ha, hl, hg, hq]
              · rfl
            · rfl
            · rfl
          · rfl
        · rfl
      · rcases List.mem_map.mp hr with ⟨c, -, rfl⟩; rfl
    · rcases List.mem_map.mp hx with ⟨c, -, rfl⟩; rfl

/-- Naturality of a global replacement along a character-preserving map. -/
theorem replaceAllG_map {α β : Type} (chA : α → Char) (chB : β → Char)
    (mkA : Char → α) (mkB : Char → β) (f : α → β)
    (hch : ∀ x, chB (f x) = chA x) (hmk : ∀ c, f (mkA c) = mkB c)
    (c : Char) (rep : List Char) (s : List α) :
    (replaceAllG chA mkA c rep s).map f = replaceAllG chB mkB c rep (s.map f) := by
  induction s with
  | nil => rfl
  | cons x xs ih =>
    rw [List.map_cons, replaceAllG_cons, replaceAllG_cons, List.map_append, ih, hch x]
    congr 1
    by_cases hx : chA x = c
    · rw [if_pos hx, if_pos hx, List.map_map]
      exact List.map_congr_left (fun a _ => hmk a)
    · rw [if_neg hx, if_neg hx]
      rfl

/-- Naturality of the escape pass. -/
theorem escapeHtmlG_map {α β : Type} (chA : α → Char) (chB : β → Char)
    (mkA : Char → α) (mkB : Char → β) (f : α → β)
    (hch : ∀ x, chB (f x) = chA x) (hmk : ∀ c, f (mkA c) = mkB c) (s : List α) :
    (escapeHtmlG chA mkA s).map f = escapeHtmlG chB mkB (s.map f) := by
  unfold escapeHtmlG
  rw [replaceAllG_map chA chB mkA mkB f hch hmk,
      replaceAllG_map chA chB mkA mkB f hch hmk,
      replaceAllG_map chA chB mkA mkB f hch hmk,
      replaceAllG_map chA chB mkA mkB f hch hmk]

/-- Naturality of the triple-backtick test. -/
theorem startsBq3_map {α β : Type} (chA : α → Char) (chB : β → Char)
    (f : α → β) (hch : ∀ x, chB (f x) = chA x) (s : List α) :
    startsBq3 chB (s.map f) = startsBq3 chA s := by
  cases s with
  | nil => rfl
  | cons x xs =>
    cases xs with
    | nil => rfl
    | cons y ys =>
      cases ys with
      | nil => rfl
      | cons z zs => simp [startsBq3, hch]

/-- Naturality of the lazy close search. -/
theorem findCloseG_map {α β : Type} (chA : α → Char) (chB : β → Char)
    (f : α → β) (hch : ∀ x, chB (f x) = chA x) (s : List α) :
    findCloseG chB (s.map f) =
      (findCloseG chA s).map (fun pr => (pr.1.map f, pr.2.map f)) := by
  induction s with
  | nil => rfl
  | cons y ys ih =>
    rw [List.map_cons, findCloseG_cons, findCloseG_cons]
    rw [show startsBq3 chB (f y :: ys.map f) = startsBq3 chA (y :: ys) from by
      rw [← List.map_cons]; exact startsBq3_map chA chB f hch (y :: ys)]
    by_cases hs : startsBq3 chA (y :: ys) = true
    · rw [if_pos hs, if_pos hs]
      rw [← List.map_drop]
      rfl
    · rw [if_neg hs, if_neg hs, ih]
      cases findCloseG chA ys with
      | none => rfl
      | some pr => rfl

/-- Naturality of the post-language fence step. -/
theorem fenceRest_map {α β : Type} (chA : α → Char) (chB : β → Char)
    (f : α → β) (hch : ∀ x, chB (f x) = chA x) (lang t : List α) :
    fenceRest chB (lang.map f) (t.map f) =
      (fenceRest chA lang t).map
        (fun tr => (tr.1.map f, tr.2.1.map f, tr.2.2.map f)) := by
  cases t with
  | nil => rfl
  | cons n rest3 =>
    rw [List.map_cons, fenceRest_cons, fenceRest_cons, hch n]
    by_cases hn : chA n = '\n'
    · rw [if_pos hn, if_pos hn, findCloseG_map chA chB f hch]
      cases findCloseG chA rest3 with
      | none => rfl
      | some pr => rfl
    · rw [if_neg hn, if_neg hn]
      rfl

/-- Naturality of the fence matcher. -/
theorem matchFenceAtG_map {α β : Type} (chA : α → Char) (chB : β → Char)
    (f : α → β) (hch : ∀ x, chB (f x) = chA x) (s : List α) :
    matchFenceAtG chB (s.map f) =
      (matchFenceAtG chA s).map
        (fun tr => (tr.1.map f, tr.2.1.map f, tr.2.2.map f)) := by
  unfold matchFenceAtG
  rw [startsBq3_map chA chB f hch]
  by_cases hs : startsBq3 chA s = true
  · rw [if_pos hs, if_pos hs]
    have hpred : (fun a => isWordChar (chB a)) ∘ f = (fun a => isWordChar (chA a)) := by
      funext a
      simp [Function.comp, hch]
    rw [← List.map_drop, List.dropWhile_map, List.takeWhile_map, hpred,
        fenceRest_map chA chB f hch]
  · rw [if_neg hs, if_neg hs]
    rfl

/-- Naturality of the trim. -/
theorem jsTrimG_map {α β : Type} (chA : α → Char) (chB : β → Char)
    (f : α → β) (hch : ∀ x, chB (f x) = chA x) (s : List α) :
    (jsTrimG chA s).map f = jsTrimG chB (s.map f) := by
  unfold jsTrimG
  have hpred : (fun a => jsWsChar (chB a)) ∘ f = (fun a => jsWsChar (chA a)) := by
    funext a
    simp [Function.comp, hch]
  rw [List.dropWhile_map, hpred, ← List.map_reverse, List.dropWhile_map, hpred,
      ← List.map_reverse]

/-- Naturality of the fence callback. -/
theorem fenceCallbackG_map {α β : Type} (chA : α → Char) (chB : β → Char)
    (mkTA mkEA : Char → α) (mkTB mkEB : Char → β) (f : α → β)
    (hch : ∀ x, chB (f x) = chA x) (hmkT : ∀ c, f (mkTA c) = mkTB c)
    (hmkE : ∀ c, f (mkEA c) = mkEB c) (lang body : List α) :
    (fenceCallbackG chA mkTA mkEA lang body).map f =
      fenceCallbackG chB mkTB mkEB (lang.map f) (body.map f) := by
  unfold fenceCallbackG
  have htpl : ∀ t : List Char, (t.map mkTA).map f = t.map mkTB := by
    intro t
    rw [List.map_map]
    exact List.map_congr_left (fun a _ => hmkT a)
  simp only [List.map_append]
  rw [htpl, htpl, htpl, htpl,
      replaceAllG_map chA chB mkEA mkEB f hch hmkE,
      jsTrimG_map chA chB f hch]
  by_cases he : lang.isEmpty = true
  · rw [if_pos he, if_pos (show (lang.map f).isEmpty = true from by
      cases lang with
      | nil => rfl
      | cons a l => exact absurd he (by simp)), htpl]
  · rw [if_neg he, if_neg (show ¬ (lang.map f).isEmpty = true from by
      cases lang with
      | nil => exact absurd rfl he
      | cons a l => simp)]

/-- Naturality of the fence scan. -/
theorem fenceLoopG_map {α β : Type} (chA : α → Char) (chB : β → Char)
    (mkTA mkEA : Char → α) (mkTB mkEB : Char → β) (f : α → β)
    (hch : ∀ x, chB (f x) = chA x) (hmkT : ∀ c, f (mkTA c) = mkTB c)
    (hmkE : ∀ c, f (mkEA c) = mkEB c) :
    ∀ (fuel : Nat) (s : List α),
      (fenceLoopG chA mkTA mkEA fuel s).map f =
        fenceLoopG chB mkTB mkEB fuel (s.map f) := by
  intro fuel
  induction fuel with
  | zero => intro s; rfl
  | succ n ih =>
    intro s
    cases s with
    | nil => rfl
    | cons y ys =>
      rw [List.map_cons, fenceLoopG_cons, fenceLoopG_cons,
          show (f y :: ys.map f) = (y :: ys).map f from rfl,
          matchFenceAtG_map chA chB f hch]
      cases matchFenceAtG chA (y :: ys) with
      | none =>
        rw [List.map_cons, ih ys]
        rfl
      | some tr =>
        rw [List.map_append,
            fenceCallbackG_map chA chB mkTA mkEA mkTB mkEB f hch hmkT hmkE,
            ih tr.2.2]
        rfl

/-- Unfolding equation for one inline-pass step. -/
theorem inlineLoopG_cons_eq {α : Type} (ch : α → Char) (mkT : Char → α)
    (n : Nat) (x : α) (xs : List α) :
    inlineLoopG ch mkT (n + 1) (x :: xs) =
      if ch x = bq then
        match xs.dropWhile (fun a => ¬ (ch a = bq ∨ ch a = '\n')),
              xs.takeWhile (fun a => ¬ (ch a = bq ∨ ch a = '\n')) with
        | r :: rs, _ :: _ =>
          if ch r = bq then
            ("<code class=\"inline\">").toList.map mkT ++
              xs.takeWhile (fun a => ¬ (ch a = bq ∨ ch a = '\n')) ++
              ("</code>").toList.map mkT ++ inlineLoopG ch mkT n rs
          else x :: inlineLoopG ch mkT n xs
        | _, _ => x :: inlineLoopG ch mkT n xs
      else x :: inlineLoopG ch mkT n xs := rfl

/-- Unfolding equation for the inline pass on a non-backtick head. -/
theorem inlineLoopG_cons_nobq {α : Type} (ch : α → Char) (mkT : Char → α)
    (n : Nat) (x : α) (xs : List α) (h : ch x ≠ bq) :
    inlineLoopG ch mkT (n + 1) (x :: xs) = x :: inlineLoopG ch mkT n xs := by
  rw [inlineLoopG_cons_eq, if_neg h]

/-- Unfolding equation for the inline pass on a backtick head. -/
theorem inlineLoopG_cons_bq {α : Type} (ch : α → Char) (mkT : Char → α)
    (n : Nat) (x : α) (xs : List α) (h : ch x = bq) :
    inlineLoopG ch mkT (n + 1) (x :: xs) =
      match xs.dropWhile (fun a => ¬ (ch a = bq ∨ ch a = '\n')),
            xs.takeWhile (fun a => ¬ (ch a = bq ∨ ch a = '\n')) with
      | r :: rs, _ :: _ =>
        if ch r = bq then
          ("<code class=\"inline\">").toList.map mkT ++
            xs.takeWhile (fun a => ¬ (ch a = bq ∨ ch a = '\n')) ++
            ("</code>").toList.map mkT ++ inlineLoopG ch mkT n rs
        else x :: inlineLoopG ch mkT n xs
      | _, _ => x :: inlineLoopG ch mkT n xs := by
  rw [inlineLoopG_cons_eq, if_pos h]

/-- Naturality of the inline pass. -/
theorem inlineLoopG_map {α β : Type} (chA : α → Char) (chB : β → Char)
    (mkTA : Char → α) (mkTB : Char → β) (f : α → β)
    (hch : ∀ x, chB (f x) = chA x) (hmkT : ∀ c, f (mkTA c) = mkTB c) :
    ∀ (fuel : Nat) (s : List α),
      (inlineLoopG chA mkTA fuel s).map f = inlineLoopG chB mkTB fuel (s.map f) := by
  have htpl : ∀ t : List Char, (t.map mkTA).map f = t.map mkTB := by
    intro t
    rw [List.map_map]
    exact List.map_congr_left (fun a _ => hmkT a)
  have hpred : ((fun a => decide (¬ (chB a = bq ∨ chB a = '\n'))) ∘ f) =
      (fun a => decide (¬ (chA a = bq ∨ chA a = '\n'))) := by
    funext a
    simp [Function.comp, hch]
  intro fuel
  induction fuel with
  | zero => intro s; rfl
  | succ n ih =>
    intro s
    cases s with
    | nil => rfl
    | cons y ys =>
      by_cases hy : chA y = bq
      · rw [List.map_cons,
            inlineLoopG_cons_bq chA mkTA n y ys hy,
            inlineLoopG_cons_bq chB mkTB n (f y) (ys.map f) (by rw [hch]; exact hy),
            List.dropWhile_map, List.takeWhile_map, hpred]
        cases hd : ys.dropWhile (fun a => ¬ (chA a = bq ∨ chA a = '\n')) with
        | nil =>
          show List.map f (y :: inlineLoopG chA mkTA n ys) =
            f y :: inlineLoopG chB mkTB n (List.map f ys)
          rw [List.map_cons, ih ys]
        | cons r rs =>
          cases ht : ys.takeWhile (fun a => ¬ (chA a = bq ∨ chA a = '\n')) with
          | nil =>
            show List.map f (y :: inlineLoopG chA mkTA n ys) =
              f y :: inlineLoopG chB mkTB n (List.map f ys)
            rw [List.map_cons, ih ys]
          | cons c cs =>
            rw [List.map_cons, List.map_cons]
            show List.map f
                (if chA r = bq then
                  ("<code class=\"inline\">").toList.map mkTA ++ (c :: cs) ++
                    ("</code>").toList.map mkTA ++ inlineLoopG chA mkTA n rs
                 else y :: inlineLoopG chA mkTA n ys) =
              (if chB (f r) = bq then
                ("<code class=\"inline\">").toList.map mkTB ++ (f c :: cs.map f) ++
                  ("</code>").toList.map mkTB ++ inlineLoopG chB mkTB n (rs.map f)
               else f y :: inlineLoopG chB mkTB n (ys.map f))
            by_cases hr : chA r = bq
            · rw [if_pos hr, if_pos (show chB (f r) = bq from by rw [hch]; exact hr)]
              rw [List.map_append, List.map_append, List.map_append, htpl, htpl,
                  ih rs, List.map_cons]
            · rw [if_neg hr, if_neg (show ¬ chB (f r) = bq from by rw [hch]; exact hr)]
              rw [List.map_cons, ih ys]
      · rw [List.map_cons,
            inlineLoopG_cons_nobq chA mkTA n y ys hy,
            inlineLoopG_cons_nobq chB mkTB n (f y) (ys.map f)
              (by rw [hch]; exact hy),
            List.map_cons, ih ys]

/-- Unfolding equation for the paragraph pass. -/
theorem paraLoopG_cons {α : Type} (ch : α → Char) (mkT : Char → α)
    (n : Nat) (x : α) (xs : List α) :
    paraLoopG ch mkT (n + 1) (x :: xs) =
      if ch x = '\n' then
        match xs.takeWhile (fun a => ch a = '\n') with
        | [] => x :: paraLoopG ch mkT n xs
        | _ :: _ =>
          ("</p><p>").toList.map mkT ++
            paraLoopG ch mkT n (xs.dropWhile (fun a => ch a = '\n'))
      else x :: paraLoopG ch mkT n xs := rfl

/-- Naturality of the paragraph pass. -/
theorem paraLoopG_map {α β : Type} (chA : α → Char) (chB : β → Char)
    (mkTA : Char → α) (mkTB : Char → β) (f : α → β)
    (hch : ∀ x, chB (f x) = chA x) (hmkT : ∀ c, f (mkTA c) = mkTB c) :
    ∀ (fuel : Nat) (s : List α),
      (paraLoopG chA mkTA fuel s).map f = paraLoopG chB mkTB fuel (s.map f) := by
  have htpl : ∀ t : List Char, (t.map mkTA).map f = t.map mkTB := by
    intro t
    rw [List.map_map]
    exact List.map_congr_left (fun a _ => hmkT a)
  have hpred : ((fun a => decide (chB a = '\n')) ∘ f) =
      (fun a => decide (chA a = '\n')) := by
    funext a
    simp [Function.comp, hch]
  intro fuel
  induction fuel with
  | zero => intro s; rfl
  | succ n ih =>
    intro s
    cases s with
    | nil => rfl
    | cons y ys =>
      rw [List.map_cons, paraLoopG_cons, paraLoopG_cons, hch y]
      by_cases hy : chA y = '\n'
      · rw [if_pos hy, if_pos hy, List.takeWhile_map, hpred]
        cases ht : ys.takeWhile (fun a => chA a = '\n') with
        | nil =>
          show List.map f (y :: paraLoopG chA mkTA n ys) =
            f y :: paraLoopG chB mkTB n (List.map f ys)
          rw [List.map_cons, ih ys]
        | cons c cs =>
          rw [List.map_cons]
          show List.map f
              (("</p><p>").toList.map mkTA ++
                paraLoopG chA mkTA n
                  (ys.dropWhile (fun a => chA a = '\n'))) =
            ("</p><p>").toList.map mkTB ++
              paraLoopG chB mkTB n
                ((ys.map f).dropWhile (fun a => chB a = '\n'))
          rw [List.map_append, htpl, ih, List.dropWhile_map, hpred]
      · rw [if_neg hy, if_neg hy, List.map_cons, ih ys]

/-- Naturality of the full renderer. -/
theorem renderMarkdownG_map {α β : Type} (chA : α → Char) (chB : β → Char)
    (mkTA mkEA : Char → α) (mkTB mkEB : Char → β) (f : α → β)
    (hch : ∀ x, chB (f x) = chA x) (hmkT : ∀ c, f (mkTA c) = mkTB c)
    (hmkE : ∀ c, f (mkEA c) = mkEB c) (md : List α) :
    (renderMarkdownG chA mkTA mkEA md).map f =
      renderMarkdownG chB mkTB mkEB (md.map f) := by
  have htpl : ∀ t : List Char, (t.map mkTA).map f = t.map mkTB := by
    intro t
    rw [List.map_map]
    exact List.map_congr_left (fun a _ => hmkT a)
  have h0 : (escapeHtmlG chA mkEA md).map f = escapeHtmlG chB mkEB (md.map f) :=
    escapeHtmlG_map chA chB mkEA mkEB f hch hmkE md
  have h1 : (fenceG chA mkTA mkEA (escapeHtmlG chA mkEA md)).map f =
      fenceG chB mkTB mkEB (escapeHtmlG chB mkEB (md.map f)) := by
    unfold fenceG
    rw [fenceLoopG_map chA chB mkTA mkEA mkTB mkEB f hch hmkT hmkE, ← h0,
        List.length_map]
  have h2 : (inlineG chA mkTA (fenceG chA mkTA mkEA (escapeHtmlG chA mkEA md))).map f =
      inlineG chB mkTB (fenceG chB mkTB mkEB (escapeHtmlG chB mkEB (md.map f))) := by
    unfold inlineG
    rw [inlineLoopG_map chA chB mkTA mkTB f hch hmkT, ← h1, List.length_map]
  have h3 : (paraG chA mkTA (inlineG chA mkTA
        (fenceG chA mkTA mkEA (escapeHtmlG chA mkEA md)))).map f =
      paraG chB mkTB (inlineG chB mkTB
        (fenceG chB mkTB mkEB (escapeHtmlG chB mkEB (md.map f)))) := by
    unfold paraG
    rw [paraLoopG_map chA chB mkTA mkTB f hch hmkT, ← h2, List.length_map]
  have h4 : (brG chA mkTA (paraG chA mkTA (inlineG chA mkTA
        (fenceG chA mkTA mkEA (escapeHtmlG chA mkEA md))))).map f =
      brG chB mkTB (paraG chB mkTB (inlineG chB mkTB
        (fenceG chB mkTB mkEB (escapeHtmlG chB mkEB (md.map f))))) := by
    unfold brG
    rw [replaceAllG_map chA chB mkTA mkTB f hch hmkT, ← h3]
  unfold renderMarkdownG
  by_cases he : md.isEmpty = true
  · rw [if_pos he, if_pos (show (md.map f).isEmpty = true from by
      cases md with
      | nil => rfl
      | cons a l => exact absurd he (by simp))]
    rfl
  · rw [if_neg he, if_neg (show ¬ (md.map f).isEmpty = true from by
      cases md with
      | nil => exact absurd rfl he
      | cons a l => simp)]
    rw [List.map_append, List.map_append, htpl, htpl, h4]

/-- Erasing provenance from the tagged renderer gives the source renderer. -/
theorem renderMarkdownT_erase (md : List Char) :
    (renderMarkdownT md).map TChar.c = renderMarkdown md := by
  unfold renderMarkdownT renderMarkdown
  rw [renderMarkdownG_map TChar.c id (fun c => TChar.mk c Tag.tpl)
      (fun c => TChar.mk c Tag.ent) id id TChar.c (fun _ => rfl) (fun _ => rfl)
      (fun _ => rfl) (tagRaw md),
      show (tagRaw md).map TChar.c = md from by
        unfold tagRaw
        rw [List.map_map]
        exact List.map_id md]

/-- C6: `renderMarkdown` escapes the entire raw input before any Markdown substitution: running the same passes over provenance-tagged characters, every output character copied raw from the input is none of `&`, `<`, `>`, `"` (the input specials survive only as entity text inserted by `escapeHtml`), and erasing the tags yields exactly `renderMarkdown`. -/
theorem renderMarkdown_escapesInput (md : List Char) :
    (renderMarkdownT md).all rawSafeChar = true ∧
    (renderMarkdownT md).map TChar.c = renderMarkdown md :=
  ⟨List.all_eq_true.mpr (renderMarkdownT_rawSafe md), renderMarkdownT_erase md⟩
